import Mathlib

/-!
# keikimix: the worker pool (`src/threadpool.hpp`) and the loader in `src/main.cpp`

The pool and the loader are embedded as interleaving state machines.  Every
access to `_stop` and `_tasks` of `keiki::thread_pool` happens while
`_task_mtx` is held, so each critical section is one atomic step:

* `enqueue`  : lines 54-60 (append at the tail),
* `destroy`  : lines 41-44 (set `_stop`); the `join` loop of lines 48-50 returns
               exactly in the states satisfying `Proc.joined`,
* `dequeue i`: lines 22-32 of worker `i` (wait, test, take the front),
* `execute i`: line 34 of worker `i` (`task()`).

A schedule is a list of such steps; a theorem quantified over all schedules is
a statement about all interleavings.  `_cv.wait(lock, pred)` lets a worker
continue only in a state where `pred` holds; a `dequeue` step taken while the
predicate is false leaves the state unchanged (the worker stays blocked).
-/

namespace keiki

/-! ## `thread_pool` -/

/-- Control state of one thread of `_threads`. -/
inductive Worker (τ : Type) where
  /-- At the top of the `while (true)` loop, up to and including `_cv.wait`. -/
  | waiting : Worker τ
  /-- Left the critical section holding `task`; `task()` of line 34 is next. -/
  | running (task : τ) : Worker τ
  /-- Took the `return` of line 27. -/
  | exited : Worker τ
  /-- An exception thrown by `task()` left the thread function. -/
  | aborted : Worker τ
deriving DecidableEq, Repr

/-- Result of one pass through the critical section of lines 22-32. -/
inductive Dequeued (τ : Type) where
  /-- The wait predicate `!_tasks.empty() || _stop` is false. -/
  | blocked : Dequeued τ
  /-- The `return` of line 27. -/
  | stopped : Dequeued τ
  /-- Lines 30-31: `task` was the front, `rest` is what `pop()` leaves. -/
  | took (task : τ) (rest : List τ) : Dequeued τ
  /-- Lines 30-31 reached with an empty queue (undefined behaviour). -/
  | emptyFront : Dequeued τ
deriving DecidableEq, Repr

/-- Lines 24-31 of the worker loop as a function of `(_stop, _tasks)`. -/
def critical {τ : Type} (stop : Bool) (tasks : List τ) : Dequeued τ :=
  if !(!tasks.isEmpty || stop) then Dequeued.blocked
  else if stop && tasks.isEmpty then Dequeued.stopped
  else
    match tasks with
    | [] => Dequeued.emptyFront
    | task :: rest => Dequeued.took task rest

/-- The data members of `keiki::thread_pool` (the mutex and the condition
variable are represented by the atomicity of the steps). -/
structure thread_pool (τ : Type) where
  _stop : Bool
  _threads : List (Worker τ)
  _tasks : List τ
deriving DecidableEq, Repr

/-- A process using one pool: the pool, the rest of the memory `env` that task
bodies act on, the trace `ran` of the calls `task()` made at line 34 (worker
index and task, in the order the calls were made), and whether
`std::terminate` was called. -/
structure Proc (τ σ : Type) where
  pool : thread_pool τ
  env : σ
  ran : List (Nat × τ)
  terminated : Bool

/-- Atomic steps of the threads using the pool. -/
inductive Step (τ : Type) where
  | enqueue (task : τ) : Step τ
  | destroy : Step τ
  | dequeue (i : Nat) : Step τ
  | execute (i : Nat) : Step τ
deriving DecidableEq, Repr

/-- The constructor, lines 16-38: `n_threads` workers, all at the loop head,
`_stop{false}` and an empty queue. -/
def thread_pool.init (τ : Type) (n_threads : Nat) : thread_pool τ :=
  { _stop := false, _threads := List.replicate n_threads Worker.waiting, _tasks := [] }

/-- Lines 54-58, `thread_pool::enqueue`: `_tasks.emplace(std::move(task))`. -/
def thread_pool.enqueue {τ : Type} (p : thread_pool τ) (task : τ) : thread_pool τ :=
  { p with _tasks := p._tasks ++ [task] }

/-- Lines 41-44 of the destructor: `_stop = true`. -/
def thread_pool.set_stop {τ : Type} (p : thread_pool τ) : thread_pool τ :=
  { p with _stop := true }

/-- The task a worker holds in its local variable `task`, not yet called. -/
def Worker.held {τ : Type} : Worker τ → Option τ
  | Worker.running task => some task
  | _ => none

/-- The tasks taken from the queue and not yet called, by worker index. -/
def thread_pool.inflight {τ : Type} (p : thread_pool τ) : List τ :=
  p._threads.filterMap Worker.held

/-- Whether a worker has returned from its thread function. -/
def Worker.isExited {τ : Type} : Worker τ → Bool
  | Worker.exited => true
  | _ => false

namespace Proc

variable {τ σ : Type}

/-- Process start: a freshly constructed pool, nothing run yet. -/
def init (n_threads : Nat) (env : σ) : Proc τ σ :=
  { pool := thread_pool.init τ n_threads, env := env, ran := [], terminated := false }

/-- Lines 22-32 of worker `i`. -/
def dequeue (s : Proc τ σ) (i : Nat) : Proc τ σ :=
  match s.pool._threads[i]? with
  | some Worker.waiting =>
    match critical s.pool._stop s.pool._tasks with
    | Dequeued.blocked => s
    | Dequeued.stopped =>
      { s with pool := { s.pool with _threads := s.pool._threads.set i Worker.exited } }
    | Dequeued.took task rest =>
      { s with pool := { s.pool with _threads := s.pool._threads.set i (Worker.running task),
                                     _tasks := rest } }
    | Dequeued.emptyFront => { s with terminated := true }
  | _ => s

/-- Line 34 of worker `i`: `task()`.  `call i task env` is the effect of the
body on the memory, `none` when the body throws.  The worker loop has no
handler, so an exception leaves the thread function and `std::terminate` is
called. -/
def execute (call : Nat → τ → σ → Option σ) (s : Proc τ σ) (i : Nat) : Proc τ σ :=
  match s.pool._threads[i]? with
  | some (Worker.running task) =>
    match call i task s.env with
    | some env' =>
      { pool := { s.pool with _threads := s.pool._threads.set i Worker.waiting },
        env := env', ran := s.ran ++ [(i, task)], terminated := s.terminated }
    | none =>
      { pool := { s.pool with _threads := s.pool._threads.set i Worker.aborted },
        env := s.env, ran := s.ran ++ [(i, task)], terminated := true }
  | _ => s

/-- One step of the process; nothing happens once it has terminated
(`std::terminate` is taken to end the process at once: what other threads may
still do before `abort()` takes effect is not modelled). -/
def step (call : Nat → τ → σ → Option σ) (s : Proc τ σ) (e : Step τ) : Proc τ σ :=
  if s.terminated then s
  else
    match e with
    | Step.enqueue task => { s with pool := s.pool.enqueue task }
    | Step.destroy => { s with pool := s.pool.set_stop }
    | Step.dequeue i => s.dequeue i
    | Step.execute i => s.execute call i

/-- Run a schedule. -/
def run (call : Nat → τ → σ → Option σ) (s : Proc τ σ) (sched : List (Step τ)) : Proc τ σ :=
  sched.foldl (step call) s

/-- The tasks whose body was called, in call order. -/
def executed (s : Proc τ σ) : List τ := s.ran.map Prod.snd

/-- Every submitted task the process still knows of: called, held by a worker,
or queued. -/
def accounted (s : Proc τ σ) : List τ := s.executed ++ s.pool.inflight ++ s.pool._tasks

/-- The `join` loop of the destructor (lines 48-50) has returned: the process
is alive and every worker has left its thread function. -/
def joined (s : Proc τ σ) : Bool :=
  !s.terminated && s.pool._threads.all Worker.isExited

/-- The tasks a schedule really passes to `enqueue` (the process is alive at
the call), in call order. -/
def submitted (call : Nat → τ → σ → Option σ) : Proc τ σ → List (Step τ) → List τ
  | _, [] => []
  | s, Step.enqueue task :: es =>
    if s.terminated then submitted call (step call s (Step.enqueue task)) es
    else task :: submitted call (step call s (Step.enqueue task)) es
  | s, e :: es => submitted call (step call s e) es

end Proc

/-- A bound on the steps a worker still takes by itself once `_stop` is set:
a waiting worker has its exit left, a running one its call and its exit. -/
def Worker.effort {τ : Type} : Worker τ → Nat
  | Worker.waiting => 1
  | Worker.running _ => 2
  | _ => 0

/-- A bound on the worker steps left once `_stop` is set and nothing more is
enqueued: two per queued task (take it, call it) plus what each worker has left. -/
def Proc.effort {τ σ : Type} (s : Proc τ σ) : Nat :=
  2 * s.pool._tasks.length + (s.pool._threads.map Worker.effort).sum

/-- Whether a step is a step of a pool worker. -/
def Step.isWorker {τ : Type} : Step τ → Bool
  | Step.dequeue _ => true
  | Step.execute _ => true
  | _ => false

/-- The tasks a schedule passes to `enqueue` before its first `destroy`. -/
def beforeStop {τ : Type} : List (Step τ) → List τ
  | [] => []
  | Step.destroy :: _ => []
  | Step.enqueue task :: es => task :: beforeStop es
  | _ :: es => beforeStop es

/-- Task bodies for examples: the tasks are numbered and every body returns. -/
def quiet_call : Nat → Nat → Unit → Option Unit :=
  fun _ _ _ => some ()

/-! ## The loader of `main.cpp`

Two kinds of closure are stored in `std::function<void()>` objects: the load
task of lines 106-122 (given to `pool.enqueue`) and the closure of lines
111-117 (pushed onto the completion queue `tasks`).  Both queues hold the same
type, and `call` gives the body of either closure on whichever thread invokes
it.  Floating-point rectangle geometry and the rendering calls of a frame are
not part of the model. -/

/-- A thread of the program: the thread running `main` or the `i`-th pool thread. -/
inductive Thread where
  | owner : Thread
  | worker (i : Nat) : Thread
deriving DecidableEq, Repr

/-- A decoded `chima::image`; the loader reads only its extent. -/
structure Image where
  width : Nat
  height : Nat
deriving DecidableEq, Repr

/-- The closures of `main.cpp`. -/
inductive Callable where
  /-- Lines 106-122, capturing everything by reference. -/
  | load_task : Callable
  /-- Lines 111-117, holding a copy of the decoded image. -/
  | apply (image : Image) : Callable
deriving DecidableEq, Repr

/-- An element of `items`: the texture handle and the image its rectangle was
sized from (`none` for the fixed rectangle of line 82). -/
structure item_data where
  texture : Nat
  image : Option Image
deriving DecidableEq, Repr

/-- What the threads are observed to do. -/
inductive Obs where
  /-- The body of a closure was entered on thread `th`. -/
  | invoked (th : Thread) (c : Callable) : Obs
  /-- Line 119, `shogle::logger::log_error("loader", ...)`, was called on `th`. -/
  | log_error (th : Thread) : Obs
deriving DecidableEq, Repr

/-- The variables of `main` the closures act on, the number of textures held
by the render context, and the trace of observations. -/
structure Main where
  tasks : List Callable
  loading : Bool
  items : List item_data
  buff : Nat
  textures : Nat
  log : List Obs
deriving DecidableEq, Repr

/-- Body of a closure invoked on thread `th`.  `disk path` is the result of
`chima::image::load` on the file named by `path` (`none`: the decode fails). -/
def call (disk : Nat → Option Image) (th : Thread) (c : Callable) (m : Main) : Main :=
  match c with
  | Callable.load_task =>
    match disk m.buff with
    | some image =>
      { m with tasks := m.tasks ++ [Callable.apply image],
               log := m.log ++ [Obs.invoked th Callable.load_task] }
    | none =>
      { m with loading := false,
               log := m.log ++ [Obs.invoked th Callable.load_task, Obs.log_error th] }
  | Callable.apply image =>
    { m with textures := m.textures + 1,
             items := m.items ++ [{ texture := m.textures, image := some image }],
             loading := false,
             log := m.log ++ [Obs.invoked th (Callable.apply image)] }

/-- The call `task()` of a pool worker; the closures of `main.cpp` report
failure through `chima::error`, they do not throw. -/
def worker_call (disk : Nat → Option Image) (i : Nat) (c : Callable) (m : Main) : Option Main :=
  some (call disk (Thread.worker i) c m)

/-- Where the owner thread is inside the render-loop callback. -/
inductive OwnerPc where
  /-- Line 138, about to evaluate `!tasks.empty()`. -/
  | drain_test : OwnerPc
  /-- Line 139, about to evaluate `tasks.front()()`. -/
  | drain_call : OwnerPc
  /-- Line 140, about to evaluate `tasks.pop()`. -/
  | drain_pop : OwnerPc
  /-- Line 145, `draw_ui` up to and including line 105. -/
  | ui : OwnerPc
  /-- Line 106, about to call `pool.enqueue`. -/
  | ui_enqueue : OwnerPc
  /-- The render loop has ended and the destructor of `pool` has set `_stop`. -/
  | closed : OwnerPc
deriving DecidableEq, Repr

/-- The whole program: the process with its pool, and the owner's position. -/
structure App where
  proc : Proc Callable Main
  pc : OwnerPc

/-- Atomic steps of the program.  `owner typed click` is the next statement of
the owner thread; at `draw_ui` the user may have typed a new path and may have
pressed the button. -/
inductive AppStep where
  | owner (typed : Option Nat) (click : Bool) : AppStep
  | close : AppStep
  | dequeue (i : Nat) : AppStep
  | execute (i : Nat) : AppStep
deriving DecidableEq, Repr

namespace App

/-- State of `main` on entry to the render loop (lines 75-82): `n_threads` is
what `hardware_concurrency()` returned. -/
def init (n_threads buff textures : Nat) : App :=
  { proc := Proc.init n_threads
      { tasks := [], loading := false, items := [{ texture := 0, image := none }],
        buff := buff, textures := textures, log := [] },
    pc := OwnerPc.drain_test }

/-- The next statement of the owner thread. -/
def owner_step (disk : Nat → Option Image) (a : App) (typed : Option Nat) (click : Bool) : App :=
  match a.pc with
  | OwnerPc.drain_test =>
    if a.proc.env.tasks.isEmpty then { a with pc := OwnerPc.ui }
    else { a with pc := OwnerPc.drain_call }
  | OwnerPc.drain_call =>
    match a.proc.env.tasks with
    | [] => { a with proc := { a.proc with terminated := true } }
    | c :: _ =>
      { proc := { a.proc with env := call disk Thread.owner c a.proc.env },
        pc := OwnerPc.drain_pop }
  | OwnerPc.drain_pop =>
    match a.proc.env.tasks with
    | [] => { a with proc := { a.proc with terminated := true } }
    | _ :: rest =>
      { proc := { a.proc with env := { a.proc.env with tasks := rest } },
        pc := OwnerPc.drain_test }
  | OwnerPc.ui =>
    if click then
      { proc := { a.proc with
                    env := { a.proc.env with buff := typed.getD a.proc.env.buff, loading := true } },
        pc := OwnerPc.ui_enqueue }
    else
      { proc := { a.proc with env := { a.proc.env with buff := typed.getD a.proc.env.buff } },
        pc := OwnerPc.drain_test }
  | OwnerPc.ui_enqueue =>
    { proc := { a.proc with pool := a.proc.pool.enqueue Callable.load_task },
      pc := OwnerPc.drain_test }
  | OwnerPc.closed => a

/-- One step of the program. -/
def step (disk : Nat → Option Image) (a : App) (e : AppStep) : App :=
  if a.proc.terminated then a
  else
    match e with
    | AppStep.owner typed click => owner_step disk a typed click
    | AppStep.close =>
      match a.pc with
      | OwnerPc.drain_test =>
        { proc := { a.proc with pool := a.proc.pool.set_stop }, pc := OwnerPc.closed }
      | _ => a
    | AppStep.dequeue i => { a with proc := a.proc.dequeue i }
    | AppStep.execute i => { a with proc := a.proc.execute (worker_call disk) i }

/-- Run a schedule of the program. -/
def run (disk : Nat → Option Image) (a : App) (sched : List AppStep) : App :=
  sched.foldl (step disk) a

end App

/-- A file system for examples: path `0` does not decode, every other path
holds a 4x2 image. -/
def example_disk : Nat → Option Image :=
  fun path => if path = 0 then none else some { width := 4, height := 2 }

/-- One frame in which the user types `path` and presses "load", up to the
moment worker 0 has taken the load task: the owner passes the empty drain loop,
executes lines 105 and 106, and worker 0 dequeues. -/
def click_load (path : Nat) : List AppStep :=
  [AppStep.owner none false, AppStep.owner (some path) true, AppStep.owner none false,
   AppStep.dequeue 0]

/-- What a call on thread `th` of a closure that pushes nothing appends to the
trace: an apply closure is entered; a load task is entered and, its decode
having failed, logs the error. -/
def quiet_obs (th : Thread) : Callable → List Obs
  | Callable.load_task => [Obs.invoked th Callable.load_task, Obs.log_error th]
  | Callable.apply image => [Obs.invoked th (Callable.apply image)]

/-- Whether a trace entry marks the completion of a load: the error report of
the failure branch (line 119), or the entry of an apply closure (lines 111-117). -/
def Obs.completes : Obs → Bool
  | Obs.log_error _ => true
  | Obs.invoked _ (Callable.apply _) => true
  | _ => false

/-- Whether a step carries a press of the "load" button. -/
def AppStep.isPress : AppStep → Bool
  | AppStep.owner _ true => true
  | _ => false

/-- Every closure is where its kind belongs: the pool's queue and the workers
hold load tasks only, the completion queue holds apply closures only, workers
have called load tasks only, and in the trace load tasks were entered on
workers and apply closures on the owner. -/
def App.sorted (a : App) : Prop :=
  (∀ c ∈ a.proc.pool._tasks, c = Callable.load_task) ∧
  (∀ c ∈ a.proc.pool.inflight, c = Callable.load_task) ∧
  (∀ c ∈ a.proc.env.tasks, ∃ image, c = Callable.apply image) ∧
  (∀ p ∈ a.proc.ran, p.2 = Callable.load_task) ∧
  (∀ th c, Obs.invoked th c ∈ a.proc.env.log →
    (c = Callable.load_task → ∃ i, th = Thread.worker i) ∧
    (∀ image, c = Callable.apply image → th = Thread.owner))

/-- While `loading` is true some load is still on its way: queued in the pool,
held by a worker, between lines 105 and 106, or its apply closure is in the
completion queue behind the owner's current position. -/
def App.pending (a : App) : Prop :=
  ((a.pc = OwnerPc.drain_call ∨ a.pc = OwnerPc.drain_pop) → a.proc.env.tasks ≠ []) ∧
  (a.proc.env.loading = true →
    a.proc.pool._tasks ≠ [] ∨ a.proc.pool.inflight ≠ [] ∨ a.pc = OwnerPc.ui_enqueue ∨
    (if a.pc = OwnerPc.drain_pop then a.proc.env.tasks.tail ≠ [] else a.proc.env.tasks ≠ []))

/-- An access to the completion queue `tasks`: the accessing thread, whether
the access writes, and whether `load_mtx` is held at that point. -/
structure Access where
  thread : Thread
  writes : Bool
  locked : Bool
deriving DecidableEq, Repr

/-- The accesses to `tasks` made by a step.  The load task constructs
`std::unique_lock lock(load_mtx)` at line 109 before `tasks.emplace` (line 111);
the render-loop callback (lines 138-141) constructs no lock. -/
def tasks_accesses (disk : Nat → Option Image) (a : App) (e : AppStep) : List Access :=
  if a.proc.terminated then []
  else
    match e with
    | AppStep.owner _ _ =>
      match a.pc with
      | OwnerPc.drain_test => [{ thread := Thread.owner, writes := false, locked := false }]
      | OwnerPc.drain_call => [{ thread := Thread.owner, writes := false, locked := false }]
      | OwnerPc.drain_pop => [{ thread := Thread.owner, writes := true, locked := false }]
      | _ => []
    | AppStep.execute i =>
      match a.proc.pool._threads[i]? with
      | some (Worker.running Callable.load_task) =>
        match disk a.proc.env.buff with
        | some _ => [{ thread := Thread.worker i, writes := true, locked := true }]
        | none => []
      | _ => []
    | _ => []

/-! ## Theorems -/

theorem set_decomp {α : Type} (w' : α) :
    ∀ (l : List α) (i : Nat) (w : α), l[i]? = some w →
      ∃ a b, l = a ++ w :: b ∧ l.set i w' = a ++ w' :: b
  | [], i, w, h => by simp at h
  | x :: l, 0, w, h => by
    simp at h
    subst h
    exact ⟨[], l, by simp, by simp⟩
  | x :: l, i + 1, w, h => by
    simp at h
    obtain ⟨a, b, h1, h2⟩ := set_decomp w' l i w h
    exact ⟨x :: a, b, by simp [h1], by simp [h2]⟩

theorem critical_took {τ : Type} {stop : Bool} {tasks : List τ} {t : τ} {rest : List τ}
    (h : critical stop tasks = Dequeued.took t rest) : tasks = t :: rest := by
  cases tasks with
  | nil => cases stop <;> simp [critical] at h
  | cons x xs =>
    cases stop <;> simp [critical] at h <;> simp [h]

theorem critical_stopped {τ : Type} {stop : Bool} {tasks : List τ}
    (h : critical stop tasks = Dequeued.stopped) : stop = true ∧ tasks = [] := by
  cases tasks with
  | nil => cases stop <;> simp [critical] at h ⊢
  | cons x xs => cases stop <;> simp [critical] at h

theorem critical_ne_emptyFront {τ : Type} (stop : Bool) (tasks : List τ) :
    critical stop tasks ≠ Dequeued.emptyFront := by
  cases tasks with
  | nil => cases stop <;> simp [critical]
  | cons x xs => cases stop <;> simp [critical]

theorem critical_stop_nil {τ : Type} : critical true ([] : List τ) = Dequeued.stopped := by
  simp [critical]

theorem critical_cons {τ : Type} (stop : Bool) (t : τ) (rest : List τ) :
    critical stop (t :: rest) = Dequeued.took t rest := by
  cases stop <;> simp [critical]

namespace Proc

variable {τ σ : Type}

/-- The three things a `dequeue` step can do. -/
theorem dequeue_cases (s : Proc τ σ) (i : Nat) :
    s.dequeue i = s ∨
    (s.pool._threads[i]? = some Worker.waiting ∧ s.pool._stop = true ∧ s.pool._tasks = [] ∧
      s.dequeue i =
        { s with pool := { s.pool with _threads := s.pool._threads.set i Worker.exited } }) ∨
    (∃ t rest, s.pool._threads[i]? = some Worker.waiting ∧ s.pool._tasks = t :: rest ∧
      s.dequeue i =
        { s with pool := { s.pool with _threads := s.pool._threads.set i (Worker.running t),
                                       _tasks := rest } }) := by
  unfold dequeue
  cases hw : s.pool._threads[i]? with
  | none => simp
  | some w =>
    cases w with
    | waiting =>
      cases hc : critical s.pool._stop s.pool._tasks with
      | blocked => simp
      | stopped =>
        obtain ⟨h1, h2⟩ := critical_stopped hc
        right; left
        simp [h1, h2]
      | took t rest =>
        right; right
        exact ⟨t, rest, rfl, critical_took hc, by simp⟩
      | emptyFront => exact absurd hc (critical_ne_emptyFront _ _)
    | running t => simp
    | exited => simp
    | aborted => simp

/-- The three things an `execute` step can do. -/
theorem execute_cases (call : Nat → τ → σ → Option σ) (s : Proc τ σ) (i : Nat) :
    s.execute call i = s ∨
    (∃ t env', s.pool._threads[i]? = some (Worker.running t) ∧ call i t s.env = some env' ∧
      s.execute call i =
        { pool := { s.pool with _threads := s.pool._threads.set i Worker.waiting },
          env := env', ran := s.ran ++ [(i, t)], terminated := s.terminated }) ∨
    (∃ t, s.pool._threads[i]? = some (Worker.running t) ∧ call i t s.env = none ∧
      s.execute call i =
        { pool := { s.pool with _threads := s.pool._threads.set i Worker.aborted },
          env := s.env, ran := s.ran ++ [(i, t)], terminated := true }) := by
  unfold execute
  cases hw : s.pool._threads[i]? with
  | none => simp
  | some w =>
    cases w with
    | waiting => simp
    | running t =>
      cases hc : call i t s.env with
      | none => right; right; exact ⟨t, rfl, hc, by simp only [hc]⟩
      | some env' => right; left; exact ⟨t, env', rfl, hc, by simp only [hc]⟩
    | exited => simp
    | aborted => simp

end Proc

theorem count_held_set {τ : Type} [DecidableEq τ] (l : List (Worker τ)) (i : Nat)
    (w w' : Worker τ) (x : τ) (h : l[i]? = some w) :
    ((l.set i w').filterMap Worker.held).count x + w.held.toList.count x
      = (l.filterMap Worker.held).count x + w'.held.toList.count x := by
  obtain ⟨a, b, h1, h2⟩ := set_decomp w' l i w h
  rw [h2]
  conv_rhs => rw [h1]
  simp only [List.filterMap_append, List.filterMap_cons, List.count_append]
  cases hw : w.held <;> cases hw' : w'.held <;> simp [List.count_cons] <;> omega

namespace Proc

variable {τ σ : Type}

theorem submitted_one (call : Nat → τ → σ → Option σ) (s : Proc τ σ) (e : Step τ) :
    submitted call s [e] =
      match e with
      | Step.enqueue t => if s.terminated then [] else [t]
      | _ => [] := by
  cases e <;> simp [submitted]

theorem submitted_cons (call : Nat → τ → σ → Option σ) (s : Proc τ σ) (e : Step τ)
    (es : List (Step τ)) :
    submitted call s (e :: es) = submitted call s [e] ++ submitted call (step call s e) es := by
  cases e <;> simp [submitted]
  split <;> simp

theorem run_cons (call : Nat → τ → σ → Option σ) (s : Proc τ σ) (e : Step τ)
    (es : List (Step τ)) : run call s (e :: es) = run call (step call s e) es := rfl

theorem run_append (call : Nat → τ → σ → Option σ) (s : Proc τ σ) (es fs : List (Step τ)) :
    run call s (es ++ fs) = run call (run call s es) fs := by
  simp [run, List.foldl_append]

theorem step_terminated (call : Nat → τ → σ → Option σ) (s : Proc τ σ) (e : Step τ)
    (h : s.terminated = true) : step call s e = s := by
  simp [step, h]

theorem run_terminated (call : Nat → τ → σ → Option σ) (s : Proc τ σ) (es : List (Step τ))
    (h : s.terminated = true) : run call s es = s := by
  induction es with
  | nil => rfl
  | cons e es ih => rw [run_cons, step_terminated call s e h, ih]

/-- Each step keeps every task accounted for, and adds exactly the task it submits. -/
theorem count_accounted_step [DecidableEq τ] (call : Nat → τ → σ → Option σ) (s : Proc τ σ)
    (e : Step τ) (x : τ) :
    (accounted (step call s e)).count x
      = (accounted s).count x + (submitted call s [e]).count x := by
  rw [submitted_one]
  by_cases ht : s.terminated = true
  · rw [step_terminated call s e ht]
    cases e <;> simp [ht]
  · have ht' : s.terminated = false := by simpa using ht
    cases e with
    | enqueue t =>
      simp [step, ht', accounted, executed, thread_pool.enqueue, thread_pool.inflight,
        List.count_append]
      omega
    | destroy =>
      simp [step, ht', accounted, executed, thread_pool.set_stop, thread_pool.inflight]
    | dequeue i =>
      simp only [step, ht', Bool.false_eq_true, if_false, List.count_nil, Nat.add_zero]
      rcases dequeue_cases s i with h | ⟨hw, _, _, h⟩ | ⟨t, rest, hw, hq, h⟩
      · rw [h]
      · rw [h]
        have := count_held_set s.pool._threads i Worker.waiting Worker.exited x hw
        simp [Worker.held, List.count_cons] at this
        simp [accounted, executed, thread_pool.inflight, List.count_append, this]
      · rw [h]
        have := count_held_set s.pool._threads i Worker.waiting (Worker.running t) x hw
        simp [Worker.held, List.count_cons] at this
        simp [accounted, executed, thread_pool.inflight, List.count_append, this, hq,
          List.count_cons]
        omega
    | execute i =>
      simp only [step, ht', Bool.false_eq_true, if_false, List.count_nil, Nat.add_zero]
      rcases execute_cases call s i with h | ⟨t, env', hw, _, h⟩ | ⟨t, hw, _, h⟩
      · rw [h]
      · rw [h]
        have := count_held_set s.pool._threads i (Worker.running t) Worker.waiting x hw
        simp [Worker.held, List.count_cons] at this
        simp [accounted, executed, thread_pool.inflight, List.count_append, List.count_cons]
        omega
      · rw [h]
        have := count_held_set s.pool._threads i (Worker.running t) Worker.aborted x hw
        simp [Worker.held, List.count_cons] at this
        simp [accounted, executed, thread_pool.inflight, List.count_append, List.count_cons]
        omega

theorem count_accounted_run [DecidableEq τ] (call : Nat → τ → σ → Option σ) (x : τ)
    (sched : List (Step τ)) :
    ∀ s : Proc τ σ, (accounted (run call s sched)).count x
      = (accounted s).count x + (submitted call s sched).count x := by
  induction sched with
  | nil => intro s; simp [run, submitted]
  | cons e es ih =>
    intro s
    rw [run_cons, ih, count_accounted_step, submitted_cons call s e es, List.count_append]
    omega

theorem accounted_init (n : Nat) (env : σ) : accounted (init n env : Proc τ σ) = [] := by
  simp [accounted, init, executed, thread_pool.init, thread_pool.inflight, Worker.held]

theorem singleton_getElem? {α : Type} {w v : α} {i : Nat} (h : [w][i]? = some v) :
    i = 0 ∧ w = v := by
  cases i with
  | zero => simpa using h
  | succ k => simp at h

/-- With one worker each step appends what it submits to the sequence
called ++ held ++ queued, and leaves the sequence otherwise unchanged. -/
theorem accounted_step_single (call : Nat → τ → σ → Option σ) (s : Proc τ σ) (e : Step τ)
    (hl : s.pool._threads.length = 1) :
    accounted (step call s e) = accounted s ++ submitted call s [e] ∧
    (step call s e).pool._threads.length = 1 := by
  rw [submitted_one]
  by_cases ht : s.terminated = true
  · rw [step_terminated call s e ht]
    cases e <;> simp [ht, hl]
  · have ht' : s.terminated = false := by simpa using ht
    obtain ⟨w, hw⟩ := List.length_eq_one.mp hl
    cases e with
    | enqueue t =>
      simp [step, ht', accounted, executed, thread_pool.enqueue, thread_pool.inflight, hl]
    | destroy =>
      simp [step, ht', accounted, executed, thread_pool.set_stop, thread_pool.inflight, hl]
    | dequeue i =>
      simp only [step, ht', Bool.false_eq_true, if_false, List.append_nil]
      rcases dequeue_cases s i with h | ⟨hi, _, _, h⟩ | ⟨t, rest, hi, hq, h⟩
      · rw [h]; exact ⟨rfl, hl⟩
      · rw [h]
        rw [hw] at hi
        obtain ⟨rfl, rfl⟩ := singleton_getElem? hi
        simp [accounted, executed, thread_pool.inflight, hw, Worker.held]
      · rw [h]
        rw [hw] at hi
        obtain ⟨rfl, rfl⟩ := singleton_getElem? hi
        simp [accounted, executed, thread_pool.inflight, hw, Worker.held, hq]
    | execute i =>
      simp only [step, ht', Bool.false_eq_true, if_false, List.append_nil]
      rcases execute_cases call s i with h | ⟨t, env', hi, _, h⟩ | ⟨t, hi, _, h⟩
      · rw [h]; exact ⟨rfl, hl⟩
      · rw [h]
        rw [hw] at hi
        obtain ⟨rfl, rfl⟩ := singleton_getElem? hi
        simp [accounted, executed, thread_pool.inflight, hw, Worker.held]
      · rw [h]
        rw [hw] at hi
        obtain ⟨rfl, rfl⟩ := singleton_getElem? hi
        simp [accounted, executed, thread_pool.inflight, hw, Worker.held]

theorem accounted_run_single (call : Nat → τ → σ → Option σ) (sched : List (Step τ)) :
    ∀ s : Proc τ σ, s.pool._threads.length = 1 →
      accounted (run call s sched) = accounted s ++ submitted call s sched := by
  induction sched with
  | nil => intro s _; simp [run, submitted]
  | cons e es ih =>
    intro s hl
    obtain ⟨h1, h2⟩ := accounted_step_single call s e hl
    rw [run_cons, ih _ h2, h1, submitted_cons call s e es, List.append_assoc]

end Proc

theorem exited_of_mem_set {τ : Type} {l : List (Worker τ)} {i : Nat} {v : Worker τ}
    (hv : v.isExited = false) (h : ∃ w ∈ l.set i v, w.isExited = true) :
    ∃ w ∈ l, w.isExited = true := by
  obtain ⟨w, hw, he⟩ := h
  rcases List.mem_or_eq_of_mem_set hw with h' | h'
  · exact ⟨w, h', he⟩
  · subst h'; rw [hv] at he; cases he

theorem not_exited_set {τ : Type} {l : List (Worker τ)} {i : Nat} {v : Worker τ}
    (hv : v.isExited = false) (h : ∀ w ∈ l, w.isExited = false) :
    ∀ w ∈ l.set i v, w.isExited = false := by
  intro w hw
  rcases List.mem_or_eq_of_mem_set hw with h' | h'
  · exact h w h'
  · subst h'; exact hv

theorem held_nil_of_exited {τ : Type} (l : List (Worker τ))
    (h : l.all Worker.isExited = true) : l.filterMap Worker.held = [] := by
  induction l with
  | nil => rfl
  | cons w l ih =>
    simp only [List.all_cons, Bool.and_eq_true] at h
    obtain ⟨hw, hl⟩ := h
    cases w with
    | exited => rw [List.filterMap_cons, ih hl]; rfl
    | waiting => cases hw
    | running t => cases hw
    | aborted => cases hw

namespace Proc

variable {τ σ : Type}

theorem length_threads_step (call : Nat → τ → σ → Option σ) (s : Proc τ σ) (e : Step τ) :
    (step call s e).pool._threads.length = s.pool._threads.length := by
  by_cases ht : s.terminated = true
  · rw [step_terminated call s e ht]
  · have ht' : s.terminated = false := by simpa using ht
    cases e with
    | enqueue t => simp [step, ht', thread_pool.enqueue]
    | destroy => simp [step, ht', thread_pool.set_stop]
    | dequeue i =>
      simp only [step, ht', Bool.false_eq_true, if_false]
      rcases dequeue_cases s i with h | ⟨_, _, _, h⟩ | ⟨t, rest, _, _, h⟩ <;> rw [h] <;> simp
    | execute i =>
      simp only [step, ht', Bool.false_eq_true, if_false]
      rcases execute_cases call s i with h | ⟨t, env', _, _, h⟩ | ⟨t, _, _, h⟩ <;>
        rw [h] <;> simp

theorem length_threads_run (call : Nat → τ → σ → Option σ) (sched : List (Step τ)) :
    ∀ s : Proc τ σ, (run call s sched).pool._threads.length = s.pool._threads.length := by
  induction sched with
  | nil => intro s; rfl
  | cons e es ih => intro s; rw [run_cons, ih, length_threads_step]

/-- Once `_stop` is set: the tasks of `E` stay accounted for, and as soon as some
worker has returned none of them is in the queue any more. -/
theorem drained_step [DecidableEq τ] (call : Nat → τ → σ → Option σ) (E : List τ)
    (s : Proc τ σ) (e : Step τ) (hstop : s.pool._stop = true)
    (h1 : ∀ x, E.count x ≤ (accounted s).count x)
    (h2 : (∃ w ∈ s.pool._threads, w.isExited = true) →
      ∀ x, E.count x ≤ (s.executed ++ s.pool.inflight).count x) :
    (step call s e).pool._stop = true ∧
    (∀ x, E.count x ≤ (accounted (step call s e)).count x) ∧
    ((∃ w ∈ (step call s e).pool._threads, w.isExited = true) →
      ∀ x, E.count x ≤ ((step call s e).executed ++ (step call s e).pool.inflight).count x) := by
  have h1' : ∀ x, E.count x ≤ (accounted (step call s e)).count x := by
    intro x
    rw [count_accounted_step]
    exact Nat.le_trans (h1 x) (Nat.le_add_right _ _)
  refine ⟨?_, h1', ?_⟩
  · by_cases ht : s.terminated = true
    · rw [step_terminated call s e ht]; exact hstop
    · have ht' : s.terminated = false := by simpa using ht
      cases e with
      | enqueue t => simpa [step, ht', thread_pool.enqueue] using hstop
      | destroy => simp [step, ht', thread_pool.set_stop]
      | dequeue i =>
        simp only [step, ht', Bool.false_eq_true, if_false]
        rcases dequeue_cases s i with h | ⟨_, _, _, h⟩ | ⟨t, rest, _, _, h⟩ <;>
          rw [h] <;> simpa using hstop
      | execute i =>
        simp only [step, ht', Bool.false_eq_true, if_false]
        rcases execute_cases call s i with h | ⟨t, env', _, _, h⟩ | ⟨t, _, _, h⟩ <;>
          rw [h] <;> simpa using hstop
  · by_cases ht : s.terminated = true
    · rw [step_terminated call s e ht]; exact h2
    · have ht' : s.terminated = false := by simpa using ht
      cases e with
      | enqueue t =>
        simpa [step, ht', thread_pool.enqueue, executed, thread_pool.inflight] using h2
      | destroy =>
        simpa [step, ht', thread_pool.set_stop, executed, thread_pool.inflight] using h2
      | dequeue i =>
        simp only [step, ht', Bool.false_eq_true, if_false]
        rcases dequeue_cases s i with h | ⟨hw, _, hq, h⟩ | ⟨t, rest, hw, hq, h⟩
        · rw [h]; exact h2
        · rw [h]
          intro _ x
          have hc := count_held_set s.pool._threads i Worker.waiting Worker.exited x hw
          have := h1 x
          simp [Worker.held, List.count_cons] at hc
          simp [accounted, executed, thread_pool.inflight, hq, List.count_append] at this ⊢
          omega
        · rw [h]
          intro hex x
          have hex' : ∃ w ∈ s.pool._threads, w.isExited = true :=
            exited_of_mem_set (v := Worker.running t) rfl hex
          have hc := count_held_set s.pool._threads i Worker.waiting (Worker.running t) x hw
          have := h2 hex' x
          simp [Worker.held, List.count_cons] at hc
          simp [executed, thread_pool.inflight, List.count_append] at this ⊢
          omega
      | execute i =>
        simp only [step, ht', Bool.false_eq_true, if_false]
        rcases execute_cases call s i with h | ⟨t, env', hw, _, h⟩ | ⟨t, hw, _, h⟩
        · rw [h]; exact h2
        · rw [h]
          intro hex x
          have hex' : ∃ w ∈ s.pool._threads, w.isExited = true :=
            exited_of_mem_set (v := Worker.waiting) rfl hex
          have hc := count_held_set s.pool._threads i (Worker.running t) Worker.waiting x hw
          have := h2 hex' x
          simp [Worker.held, List.count_cons] at hc
          simp [executed, thread_pool.inflight, List.count_append, List.count_cons] at this ⊢
          omega
        · rw [h]
          intro hex x
          have hex' : ∃ w ∈ s.pool._threads, w.isExited = true :=
            exited_of_mem_set (v := Worker.aborted) rfl hex
          have hc := count_held_set s.pool._threads i (Worker.running t) Worker.aborted x hw
          have := h2 hex' x
          simp [Worker.held, List.count_cons] at hc
          simp [executed, thread_pool.inflight, List.count_append, List.count_cons] at this ⊢
          omega

theorem drained_run [DecidableEq τ] (call : Nat → τ → σ → Option σ) (E : List τ)
    (sched : List (Step τ)) :
    ∀ s : Proc τ σ, s.pool._stop = true →
      (∀ x, E.count x ≤ (accounted s).count x) →
      ((∃ w ∈ s.pool._threads, w.isExited = true) →
        ∀ x, E.count x ≤ (s.executed ++ s.pool.inflight).count x) →
      ((∃ w ∈ (run call s sched).pool._threads, w.isExited = true) →
        ∀ x, E.count x ≤
          ((run call s sched).executed ++ (run call s sched).pool.inflight).count x) := by
  induction sched with
  | nil => intro s _ _ h2; exact h2
  | cons e es ih =>
    intro s hstop h1 h2
    obtain ⟨a, b, c⟩ := drained_step call E s e hstop h1 h2
    rw [run_cons]
    exact ih _ a b c

/-- In a joined state with at least one worker, whatever the workers' exits
left out of the queue has been called. -/
theorem joined_executed [DecidableEq τ] (E : List τ) (s : Proc τ σ)
    (hj : s.joined = true) (hn : s.pool._threads ≠ [])
    (h2 : (∃ w ∈ s.pool._threads, w.isExited = true) →
      ∀ x, E.count x ≤ (s.executed ++ s.pool.inflight).count x) :
    ∀ x, E.count x ≤ s.executed.count x := by
  simp only [joined, Bool.and_eq_true] at hj
  have hall := hj.2
  have hin : s.pool.inflight = [] := held_nil_of_exited _ hall
  obtain ⟨w, l, hl⟩ := List.exists_cons_of_ne_nil hn
  have hw : w.isExited = true := by
    rw [hl] at hall
    simp only [List.all_cons, Bool.and_eq_true] at hall
    exact hall.1
  intro x
  have := h2 ⟨w, by rw [hl]; exact List.mem_cons_self _ _, hw⟩ x
  simpa [hin] using this

/-- While `_stop` is false no step other than `destroy` sets it, and no worker returns. -/
theorem running_step (call : Nat → τ → σ → Option σ) (s : Proc τ σ) (e : Step τ)
    (he : e ≠ Step.destroy) (hstop : s.pool._stop = false)
    (hex : ∀ w ∈ s.pool._threads, w.isExited = false) :
    (step call s e).pool._stop = false ∧
    (∀ w ∈ (step call s e).pool._threads, w.isExited = false) := by
  by_cases ht : s.terminated = true
  · rw [step_terminated call s e ht]; exact ⟨hstop, hex⟩
  · have ht' : s.terminated = false := by simpa using ht
    cases e with
    | enqueue t => exact ⟨by simpa [step, ht', thread_pool.enqueue] using hstop,
        by simpa [step, ht', thread_pool.enqueue] using hex⟩
    | destroy => exact absurd rfl he
    | dequeue i =>
      simp only [step, ht', Bool.false_eq_true, if_false]
      rcases dequeue_cases s i with h | ⟨_, hs, _, _⟩ | ⟨t, rest, _, _, h⟩
      · rw [h]; exact ⟨hstop, hex⟩
      · rw [hstop] at hs; cases hs
      · rw [h]; exact ⟨hstop, not_exited_set (v := Worker.running t) rfl hex⟩
    | execute i =>
      simp only [step, ht', Bool.false_eq_true, if_false]
      rcases execute_cases call s i with h | ⟨t, env', _, _, h⟩ | ⟨t, _, _, h⟩
      · rw [h]; exact ⟨hstop, hex⟩
      · rw [h]; exact ⟨hstop, not_exited_set (v := Worker.waiting) rfl hex⟩
      · rw [h]; exact ⟨hstop, not_exited_set (v := Worker.aborted) rfl hex⟩

theorem not_joined_of_running (s : Proc τ σ) (hn : s.pool._threads ≠ [])
    (hex : ∀ w ∈ s.pool._threads, w.isExited = false) : s.joined = false := by
  obtain ⟨w, l, hl⟩ := List.exists_cons_of_ne_nil hn
  have hw : w.isExited = false := hex w (by rw [hl]; exact List.mem_cons_self _ _)
  simp [joined, hl, hw]

/-- From a state in which `_stop` is false and no worker has returned: if the
run ends joined, everything accounted for at the start and everything enqueued
before the first `destroy` has been called. -/
theorem before_stop_executed [DecidableEq τ] (call : Nat → τ → σ → Option σ)
    (sched : List (Step τ)) :
    ∀ s : Proc τ σ, s.pool._stop = false → (∀ w ∈ s.pool._threads, w.isExited = false) →
      s.pool._threads ≠ [] → (run call s sched).joined = true →
      ∀ x, (accounted s).count x + (beforeStop sched).count x
        ≤ (run call s sched).executed.count x := by
  induction sched with
  | nil =>
    intro s _ hex hn hj
    have : s.joined = false := not_joined_of_running s hn hex
    simp [run, this] at hj
  | cons e es ih =>
    intro s hstop hex hn hj x
    by_cases ht : s.terminated = true
    · rw [run_terminated call s _ ht] at hj
      simp [joined, ht] at hj
    · have ht' : s.terminated = false := by simpa using ht
      rw [run_cons] at hj ⊢
      have hn' : (step call s e).pool._threads ≠ [] := by
        intro h0
        have := length_threads_step call s e
        rw [h0] at this
        exact hn (List.length_eq_zero.mp this.symm)
      by_cases he : e = Step.destroy
      · subst he
        have hstep : step call s Step.destroy = { s with pool := s.pool.set_stop } := by
          simp [step, ht']
        have hacc : accounted (step call s Step.destroy) = accounted s := by
          rw [hstep]; rfl
        have hd := drained_run call (accounted s) es (step call s Step.destroy)
          (by rw [hstep]; rfl) (by rw [hacc]; intro y; exact Nat.le_refl _)
          (by
            intro hw
            obtain ⟨w, hw1, hw2⟩ := hw
            rw [hstep] at hw1
            have := hex w hw1
            rw [this] at hw2; cases hw2)
        have hn'' : (run call (step call s Step.destroy) es).pool._threads ≠ [] := by
          intro h0
          have := length_threads_run call es (step call s Step.destroy)
          rw [h0] at this
          exact hn' (List.length_eq_zero.mp this.symm)
        have := joined_executed (accounted s) _ hj hn'' hd x
        simpa [beforeStop] using this
      · obtain ⟨hstop', hex'⟩ := running_step call s e he hstop hex
        have := ih (step call s e) hstop' hex' hn' hj x
        rw [count_accounted_step, submitted_one] at this
        cases e with
        | enqueue t => simp [ht', beforeStop, List.count_cons] at this ⊢; omega
        | destroy => exact absurd rfl he
        | dequeue i => simpa [beforeStop] using this
        | execute i => simpa [beforeStop] using this

end Proc

theorem effort_set {τ : Type} (l : List (Worker τ)) (i : Nat) (w w' : Worker τ)
    (h : l[i]? = some w) :
    ((l.set i w').map Worker.effort).sum + w.effort
      = (l.map Worker.effort).sum + w'.effort := by
  obtain ⟨a, b, h1, h2⟩ := set_decomp w' l i w h
  rw [h2]
  conv_rhs => rw [h1]
  simp only [List.map_append, List.map_cons, List.sum_append, List.sum_cons]
  omega

theorem exists_not_exited {τ : Type} (l : List (Worker τ))
    (h : l.all Worker.isExited = false) :
    ∃ (i : Nat) (w : Worker τ), l[i]? = some w ∧ w.isExited = false := by
  induction l with
  | nil => simp at h
  | cons v l ih =>
    cases hv : v.isExited with
    | false => exact ⟨0, v, by simp, hv⟩
    | true =>
      have hl : l.all Worker.isExited = false := by
        simpa [List.all_cons, hv] using h
      obtain ⟨i, w, hi, hw⟩ := ih hl
      exact ⟨i + 1, w, by rw [List.getElem?_cons_succ]; exact hi, hw⟩

theorem not_aborted_set {τ : Type} {l : List (Worker τ)} {i : Nat} {v : Worker τ}
    (hv : v ≠ Worker.aborted) (h : ∀ w ∈ l, w ≠ Worker.aborted) :
    ∀ w ∈ l.set i v, w ≠ Worker.aborted := by
  intro w hw
  rcases List.mem_or_eq_of_mem_set hw with h' | h'
  · exact h w h'
  · subst h'; exact hv

namespace Proc

variable {τ σ : Type}

theorem dequeue_waiting_nil (s : Proc τ σ) (i : Nat)
    (hw : s.pool._threads[i]? = some Worker.waiting) (hs : s.pool._stop = true)
    (hq : s.pool._tasks = []) :
    s.dequeue i =
      { s with pool := { s.pool with _threads := s.pool._threads.set i Worker.exited } } := by
  simp only [dequeue, hw, hs, hq, critical_stop_nil]

theorem dequeue_waiting_cons (s : Proc τ σ) (i : Nat) (t : τ) (rest : List τ)
    (hw : s.pool._threads[i]? = some Worker.waiting) (hq : s.pool._tasks = t :: rest) :
    s.dequeue i =
      { s with pool := { s.pool with _threads := s.pool._threads.set i (Worker.running t),
                                     _tasks := rest } } := by
  simp only [dequeue, hw, hq, critical_cons]

theorem execute_running (call : Nat → τ → σ → Option σ) (s : Proc τ σ) (i : Nat) (t : τ)
    (env' : σ) (hw : s.pool._threads[i]? = some (Worker.running t))
    (hc : call i t s.env = some env') :
    s.execute call i =
      { pool := { s.pool with _threads := s.pool._threads.set i Worker.waiting },
        env := env', ran := s.ran ++ [(i, t)], terminated := s.terminated } := by
  simp only [execute, hw, hc]

/-- With `_stop` set and tasks that do not throw, worker steps alone bring the
process to a joined state. -/
theorem can_join (call : Nat → τ → σ → Option σ) (hcall : ∀ i t m, call i t m ≠ none) :
    ∀ (k : Nat) (s : Proc τ σ), s.effort ≤ k → s.terminated = false → s.pool._stop = true →
      (∀ w ∈ s.pool._threads, w ≠ Worker.aborted) →
      ∃ post : List (Step τ), (∀ e ∈ post, e.isWorker = true) ∧
        (run call s post).joined = true := by
  intro k
  induction k with
  | zero =>
    intro s hk ht hs ha
    cases hall : s.pool._threads.all Worker.isExited with
    | true => exact ⟨[], by simp, by simp [run, joined, ht, hall]⟩
    | false =>
      obtain ⟨i, w, hi, hw⟩ := exists_not_exited _ hall
      have hmem : w ∈ s.pool._threads := List.mem_iff_getElem?.mpr ⟨i, hi⟩
      have he := effort_set s.pool._threads i w Worker.exited hi
      simp only [effort] at hk
      cases w with
      | waiting => simp [Worker.effort] at he; omega
      | running t => simp [Worker.effort] at he; omega
      | exited => cases hw
      | aborted => exact absurd rfl (ha _ hmem)
  | succ k ih =>
    intro s hk ht hs ha
    cases hall : s.pool._threads.all Worker.isExited with
    | true => exact ⟨[], by simp, by simp [run, joined, ht, hall]⟩
    | false =>
      obtain ⟨i, w, hi, hw⟩ := exists_not_exited _ hall
      have hmem : w ∈ s.pool._threads := List.mem_iff_getElem?.mpr ⟨i, hi⟩
      simp only [effort] at hk
      cases w with
      | waiting =>
        have hstep : step call s (Step.dequeue i) = s.dequeue i := by simp [step, ht]
        cases hq : s.pool._tasks with
        | nil =>
          have hd := dequeue_waiting_nil s i hi hs hq
          have he := effort_set s.pool._threads i Worker.waiting Worker.exited hi
          simp only [Worker.effort] at he
          obtain ⟨post, hp1, hp2⟩ := ih (s.dequeue i)
            (by rw [hd]; simp only [effort]; rw [hq] at hk ⊢; simp only [List.length_nil] at hk ⊢; omega)
            (by rw [hd]; exact ht) (by rw [hd]; exact hs)
            (by rw [hd]; exact not_aborted_set (by simp) ha)
          refine ⟨Step.dequeue i :: post, ?_, ?_⟩
          · intro e hmem'
            rcases List.mem_cons.mp hmem' with h | h
            · subst h; rfl
            · exact hp1 e h
          · rw [run_cons, hstep]; exact hp2
        | cons t rest =>
          have hd := dequeue_waiting_cons s i t rest hi hq
          have he := effort_set s.pool._threads i Worker.waiting (Worker.running t) hi
          simp only [Worker.effort] at he
          obtain ⟨post, hp1, hp2⟩ := ih (s.dequeue i)
            (by rw [hd]; simp only [effort]; rw [hq] at hk; simp only [List.length_cons] at hk; omega)
            (by rw [hd]; exact ht) (by rw [hd]; exact hs)
            (by rw [hd]; exact not_aborted_set (by simp) ha)
          refine ⟨Step.dequeue i :: post, ?_, ?_⟩
          · intro e hmem'
            rcases List.mem_cons.mp hmem' with h | h
            · subst h; rfl
            · exact hp1 e h
          · rw [run_cons, hstep]; exact hp2
      | running t =>
        have hstep : step call s (Step.execute i) = s.execute call i := by simp [step, ht]
        cases hc : call i t s.env with
        | none => exact absurd hc (hcall i t s.env)
        | some env' =>
          have hd := execute_running call s i t env' hi hc
          have he := effort_set s.pool._threads i (Worker.running t) Worker.waiting hi
          simp only [Worker.effort] at he
          obtain ⟨post, hp1, hp2⟩ := ih (s.execute call i)
            (by rw [hd]; simp only [effort]; omega)
            (by rw [hd]; exact ht) (by rw [hd]; exact hs)
            (by rw [hd]; exact not_aborted_set (by simp) ha)
          refine ⟨Step.execute i :: post, ?_, ?_⟩
          · intro e hmem'
            rcases List.mem_cons.mp hmem' with h | h
            · subst h; rfl
            · exact hp1 e h
          · rw [run_cons, hstep]; exact hp2
      | exited => cases hw
      | aborted => exact absurd rfl (ha _ hmem)

/-- When no task throws the process stays alive and no worker is aborted. -/
theorem alive_step (call : Nat → τ → σ → Option σ) (hcall : ∀ i t m, call i t m ≠ none)
    (s : Proc τ σ) (e : Step τ) (ht : s.terminated = false)
    (ha : ∀ w ∈ s.pool._threads, w ≠ Worker.aborted) :
    (step call s e).terminated = false ∧
    (∀ w ∈ (step call s e).pool._threads, w ≠ Worker.aborted) := by
  cases e with
  | enqueue t =>
    exact ⟨by simp [step, ht], by simpa [step, ht, thread_pool.enqueue] using ha⟩
  | destroy =>
    exact ⟨by simp [step, ht], by simpa [step, ht, thread_pool.set_stop] using ha⟩
  | dequeue i =>
    simp only [step, ht, Bool.false_eq_true, if_false]
    rcases dequeue_cases s i with h | ⟨_, _, _, h⟩ | ⟨t, rest, _, _, h⟩
    · rw [h]; exact ⟨ht, ha⟩
    · rw [h]; exact ⟨ht, not_aborted_set (by simp) ha⟩
    · rw [h]; exact ⟨ht, not_aborted_set (by simp) ha⟩
  | execute i =>
    simp only [step, ht, Bool.false_eq_true, if_false]
    rcases execute_cases call s i with h | ⟨t, env', _, _, h⟩ | ⟨t, _, hc, _⟩
    · rw [h]; exact ⟨ht, ha⟩
    · rw [h]; exact ⟨ht, not_aborted_set (by simp) ha⟩
    · exact absurd hc (hcall i t s.env)

theorem alive_run (call : Nat → τ → σ → Option σ) (hcall : ∀ i t m, call i t m ≠ none)
    (sched : List (Step τ)) :
    ∀ s : Proc τ σ, s.terminated = false → (∀ w ∈ s.pool._threads, w ≠ Worker.aborted) →
      (run call s sched).terminated = false ∧
      (∀ w ∈ (run call s sched).pool._threads, w ≠ Worker.aborted) := by
  induction sched with
  | nil => intro s ht ha; exact ⟨ht, ha⟩
  | cons e es ih =>
    intro s ht ha
    obtain ⟨a, b⟩ := alive_step call hcall s e ht ha
    rw [run_cons]
    exact ih _ a b

end Proc

theorem mem_held_set {τ : Type} {l : List (Worker τ)} {i : Nat} {v : Worker τ} {c : τ}
    (h : c ∈ (l.set i v).filterMap Worker.held) :
    c ∈ l.filterMap Worker.held ∨ v.held = some c := by
  rw [List.mem_filterMap] at h
  obtain ⟨w, hw, hc⟩ := h
  rcases List.mem_or_eq_of_mem_set hw with h' | h'
  · left; exact List.mem_filterMap.mpr ⟨w, h', hc⟩
  · right; rw [← h']; exact hc

theorem mem_held_of_running {τ : Type} {l : List (Worker τ)} {i : Nat} {c : τ}
    (h : l[i]? = some (Worker.running c)) : c ∈ l.filterMap Worker.held :=
  List.mem_filterMap.mpr ⟨Worker.running c, List.mem_iff_getElem?.mpr ⟨i, h⟩, rfl⟩

namespace App

theorem run_step (disk : Nat → Option Image) (a : App) (e : AppStep) (es : List AppStep) :
    run disk a (e :: es) = run disk (step disk a e) es := rfl

theorem step_halted (disk : Nat → Option Image) (a : App) (e : AppStep)
    (h : a.proc.terminated = true) : step disk a e = a := by
  simp [step, h]

theorem sorted_init (n buff textures : Nat) : (init n buff textures).sorted := by
  unfold sorted
  refine ⟨?_, ?_, ?_, ?_, ?_⟩ <;>
    simp [init, Proc.init, thread_pool.init, thread_pool.inflight, Worker.held]

/-- Every step keeps the closures sorted. -/
theorem sorted_step (disk : Nat → Option Image) (a : App) (e : AppStep) (h : a.sorted) :
    (step disk a e).sorted := by
  by_cases ht : a.proc.terminated = true
  · rw [step_halted disk a e ht]; exact h
  have ht' : a.proc.terminated = false := by simpa using ht
  obtain ⟨h1, h2, h3, h4, h5⟩ := h
  unfold sorted
  cases e with
  | owner typed click =>
    simp only [step, ht', Bool.false_eq_true, if_false, owner_step]
    cases hpc : a.pc with
    | drain_test =>
      simp only
      split <;> exact ⟨h1, h2, h3, h4, h5⟩
    | drain_call =>
      simp only
      cases hq : a.proc.env.tasks with
      | nil => exact ⟨h1, h2, by simp [hq], h4, h5⟩
      | cons c rest =>
        obtain ⟨image, rfl⟩ := h3 c (by rw [hq]; exact List.mem_cons_self _ _)
        refine ⟨h1, h2, ?_, h4, ?_⟩
        · simpa [call, hq] using h3
        · intro th c hm
          simp only [call, List.mem_append, List.mem_singleton] at hm
          rcases hm with hm | hm
          · exact h5 th c hm
          · cases hm
            exact ⟨fun hc => (by cases hc), fun _ _ => rfl⟩
    | drain_pop =>
      simp only
      cases hq : a.proc.env.tasks with
      | nil => exact ⟨h1, h2, by simp [hq], h4, h5⟩
      | cons c rest =>
        refine ⟨h1, h2, ?_, h4, h5⟩
        intro c' hc'
        exact h3 c' (by rw [hq]; exact List.mem_cons_of_mem _ hc')
    | ui =>
      simp only
      split <;> exact ⟨h1, h2, h3, h4, h5⟩
    | ui_enqueue =>
      refine ⟨?_, h2, h3, h4, h5⟩
      intro c hc
      simp only [thread_pool.enqueue, List.mem_append, List.mem_singleton] at hc
      rcases hc with hc | hc
      · exact h1 c hc
      · exact hc
    | closed => simp only [hpc]; exact ⟨h1, h2, h3, h4, h5⟩
  | close =>
    simp only [step, ht', Bool.false_eq_true, if_false]
    split <;> exact ⟨h1, h2, h3, h4, h5⟩
  | dequeue i =>
    simp only [step, ht', Bool.false_eq_true, if_false]
    rcases Proc.dequeue_cases a.proc i with hd | ⟨_, _, _, hd⟩ | ⟨t, rest, _, hq, hd⟩
    · rw [hd]; exact ⟨h1, h2, h3, h4, h5⟩
    · rw [hd]
      refine ⟨h1, ?_, h3, h4, h5⟩
      intro c hc
      rcases mem_held_set hc with hc' | hc'
      · exact h2 c hc'
      · cases hc'
    · rw [hd]
      refine ⟨?_, ?_, h3, h4, h5⟩
      · intro c hc
        exact h1 c (by rw [hq]; exact List.mem_cons_of_mem _ hc)
      · intro c hc
        rcases mem_held_set hc with hc' | hc'
        · exact h2 c hc'
        · simp only [Worker.held, Option.some.injEq] at hc'
          subst hc'
          exact h1 t (by rw [hq]; exact List.mem_cons_self _ _)
  | execute i =>
    simp only [step, ht', Bool.false_eq_true, if_false]
    rcases Proc.execute_cases (worker_call disk) a.proc i with
      hd | ⟨t, env', hw, hc, hd⟩ | ⟨t, _, hc, _⟩
    · rw [hd]; exact ⟨h1, h2, h3, h4, h5⟩
    · rw [hd]
      have htl : t = Callable.load_task := h2 t (mem_held_of_running hw)
      subst htl
      simp only [worker_call, Option.some.injEq] at hc
      subst hc
      refine ⟨h1, ?_, ?_, ?_, ?_⟩
      · intro c hc
        rcases mem_held_set hc with hc' | hc'
        · exact h2 c hc'
        · cases hc'
      · intro c hc
        simp only [call] at hc
        split at hc
        · simp only [List.mem_append, List.mem_singleton] at hc
          rcases hc with hc | hc
          · exact h3 c hc
          · exact ⟨_, hc⟩
        · exact h3 c hc
      · intro p hp
        simp only [List.mem_append, List.mem_singleton] at hp
        rcases hp with hp | hp
        · exact h4 p hp
        · rw [hp]
      · intro th c hm
        simp only [call] at hm
        split at hm
        · simp only [List.mem_append, List.mem_singleton] at hm
          rcases hm with hm | hm
          · exact h5 th c hm
          · cases hm
            exact ⟨fun _ => ⟨i, rfl⟩, fun _ hc => by cases hc⟩
        · simp only [List.mem_append, List.mem_cons, List.mem_singleton, List.mem_nil_iff,
            or_false] at hm
          rcases hm with hm | hm | hm
          · exact h5 th c hm
          · cases hm
            exact ⟨fun _ => ⟨i, rfl⟩, fun _ hc => by cases hc⟩
          · cases hm
    · simp [worker_call] at hc

theorem sorted_run (disk : Nat → Option Image) (sched : List AppStep) :
    ∀ a : App, a.sorted → (run disk a sched).sorted := by
  induction sched with
  | nil => intro a h; exact h
  | cons e es ih => intro a h; rw [run_step]; exact ih _ (sorted_step disk a e h)

end App

theorem held_set_running_ne_nil {τ : Type} (l : List (Worker τ)) (i : Nat) (w : Worker τ)
    (t : τ) (h : l[i]? = some w) : (l.set i (Worker.running t)).filterMap Worker.held ≠ [] := by
  obtain ⟨a, b, _, h2⟩ := set_decomp (Worker.running t) l i w h
  rw [h2]
  simp [List.filterMap_append, Worker.held]

theorem held_set_exited {τ : Type} (l : List (Worker τ)) (i : Nat)
    (h : l[i]? = some Worker.waiting) :
    (l.set i Worker.exited).filterMap Worker.held = l.filterMap Worker.held := by
  obtain ⟨a, b, h1, h2⟩ := set_decomp Worker.exited l i Worker.waiting h
  rw [h2]
  conv_rhs => rw [h1]
  simp [List.filterMap_append, Worker.held]

namespace App

theorem pending_init (n buff textures : Nat) : (init n buff textures).pending := by
  unfold pending
  simp [init, Proc.init]

/-- Every step keeps a load pending while `loading` is true. -/
theorem pending_step (disk : Nat → Option Image) (a : App) (e : AppStep) (h : a.pending) :
    (step disk a e).pending := by
  by_cases ht : a.proc.terminated = true
  · rw [step_halted disk a e ht]; exact h
  have ht' : a.proc.terminated = false := by simpa using ht
  obtain ⟨h1, h2⟩ := h
  unfold pending
  cases e with
  | owner typed click =>
    simp only [step, ht', Bool.false_eq_true, if_false, owner_step]
    cases hpc : a.pc with
    | drain_test =>
      simp only [hpc] at h1 h2
      simp only
      cases hq : a.proc.env.tasks with
      | nil => simpa [hq] using h2
      | cons c rest => simp [hq]
    | drain_call =>
      simp only
      cases hq : a.proc.env.tasks with
      | nil => exact absurd hq (h1 (Or.inl hpc))
      | cons c rest =>
        cases c with
        | load_task =>
          simp only [call, hq]
          cases disk a.proc.env.buff <;> simp
        | apply image => simp [call, hq]
    | drain_pop =>
      simp only [hpc] at h1 h2
      simp only
      cases hq : a.proc.env.tasks with
      | nil => simp [hq] at h1
      | cons c rest => simpa [hq] using h2
    | ui =>
      simp only [hpc] at h1 h2
      simp only
      cases click with
      | true => simp
      | false => simpa using h2
    | ui_enqueue =>
      simp [thread_pool.enqueue]
    | closed =>
      simp only [hpc] at h1 h2
      simpa [hpc] using h2
  | close =>
    simp only [step, ht', Bool.false_eq_true, if_false]
    cases hpc : a.pc with
    | drain_test =>
      simp only [hpc] at h1 h2
      simpa [thread_pool.set_stop, thread_pool.inflight] using h2
    | drain_call => exact ⟨h1, h2⟩
    | drain_pop => exact ⟨h1, h2⟩
    | ui => exact ⟨h1, h2⟩
    | ui_enqueue => exact ⟨h1, h2⟩
    | closed => exact ⟨h1, h2⟩
  | dequeue i =>
    simp only [step, ht', Bool.false_eq_true, if_false]
    rcases Proc.dequeue_cases a.proc i with hd | ⟨hw, _, hq, hd⟩ | ⟨t, rest, hw, hq, hd⟩
    · rw [hd]; exact ⟨h1, h2⟩
    · rw [hd]
      refine ⟨h1, ?_⟩
      intro hl
      have := h2 hl
      simpa [thread_pool.inflight, held_set_exited _ i hw] using this
    · rw [hd]
      refine ⟨h1, ?_⟩
      intro _
      right; left
      exact held_set_running_ne_nil _ i _ t hw
  | execute i =>
    simp only [step, ht', Bool.false_eq_true, if_false]
    rcases Proc.execute_cases (worker_call disk) a.proc i with
      hd | ⟨t, env', hw, hc, hd⟩ | ⟨t, _, hc, _⟩
    · rw [hd]; exact ⟨h1, h2⟩
    · rw [hd]
      simp only [worker_call, Option.some.injEq] at hc
      subst hc
      cases t with
      | load_task =>
        simp only [call]
        cases disk a.proc.env.buff with
        | none => simp; exact h1
        | some image =>
          refine ⟨fun hp => by simp, fun _ => ?_⟩
          right; right; right
          by_cases hp : a.pc = OwnerPc.drain_pop
          · have := h1 (Or.inr hp)
            obtain ⟨c, rest, hq⟩ := List.exists_cons_of_ne_nil this
            simp [hp, hq]
          · simp [hp]
      | apply image => simp [call]; exact h1
    · simp [worker_call] at hc

theorem pending_run (disk : Nat → Option Image) (sched : List AppStep) :
    ∀ a : App, a.pending → (run disk a sched).pending := by
  induction sched with
  | nil => intro a h; exact h
  | cons e es ih => intro a h; rw [run_step]; exact ih _ (pending_step disk a e h)

/-- A call that finds nothing to decode leaves `tasks` and `buff` as they are. -/
theorem call_quiet (disk : Nat → Option Image) (th : Thread) (c : Callable) (m : Main)
    (h : c = Callable.load_task → disk m.buff = none) :
    (call disk th c m).tasks = m.tasks ∧ (call disk th c m).buff = m.buff := by
  cases c with
  | load_task => simp [call, h rfl]
  | apply image => simp [call]

theorem call_quiet_with_tasks (disk : Nat → Option Image) (th : Thread) (c : Callable)
    (m : Main) (q : List Callable) (h : c = Callable.load_task → disk m.buff = none) :
    call disk th c { m with tasks := q } = { call disk th c m with tasks := q } := by
  cases c with
  | load_task =>
    have := h rfl
    simp [call, this]
  | apply image => simp [call]

theorem foldl_call_with_tasks (disk : Nat → Option Image) (cs : List Callable) :
    ∀ (m : Main) (q : List Callable),
      (∀ c ∈ cs, c = Callable.load_task → disk m.buff = none) →
      cs.foldl (fun m c => call disk Thread.owner c m) { m with tasks := q }
        = { cs.foldl (fun m c => call disk Thread.owner c m) m with tasks := q } := by
  induction cs with
  | nil => intro m q _; rfl
  | cons c cs ih =>
    intro m q h
    have hc := h c (List.mem_cons_self _ _)
    simp only [List.foldl_cons]
    rw [call_quiet_with_tasks disk Thread.owner c m q hc]
    apply ih
    intro c' hc' hl
    rw [(call_quiet disk Thread.owner c m hc).2]
    exact h c' (List.mem_cons_of_mem _ hc') hl

theorem foldl_call_log (disk : Nat → Option Image) (cs : List Callable) :
    ∀ m : Main, (∀ c ∈ cs, c = Callable.load_task → disk m.buff = none) →
      (cs.foldl (fun m c => call disk Thread.owner c m) m).log
        = m.log ++ cs.flatMap (quiet_obs Thread.owner) := by
  induction cs with
  | nil => intro m _; simp
  | cons c cs ih =>
    intro m h
    have hc := h c (List.mem_cons_self _ _)
    simp only [List.foldl_cons, List.flatMap_cons]
    rw [ih]
    · cases c with
      | load_task =>
        have := hc rfl
        simp [call, this, quiet_obs]
      | apply image => simp [call, quiet_obs]
    · intro c' hc' hl
      rw [(call_quiet disk Thread.owner c m hc).2]
      exact h c' (List.mem_cons_of_mem _ hc') hl

/-- One iteration of the `while` loop of lines 138-141 on a queue whose front
pushes nothing. -/
theorem drain_iteration (disk : Nat → Option Image) (a : App) (c : Callable)
    (rest : List Callable) (ht : a.proc.terminated = false) (hpc : a.pc = OwnerPc.drain_test)
    (hq : a.proc.env.tasks = c :: rest)
    (hc : c = Callable.load_task → disk a.proc.env.buff = none) (es : List AppStep) :
    run disk a (AppStep.owner none false :: AppStep.owner none false
        :: AppStep.owner none false :: es)
      = run disk
          { proc := { a.proc with
                      env := { (call disk Thread.owner c a.proc.env) with tasks := rest } },
            pc := OwnerPc.drain_test } es := by
  have e1 : step disk a (AppStep.owner none false) = { a with pc := OwnerPc.drain_call } := by
    simp [step, ht, owner_step, hpc, hq]
  have e2 : step disk { a with pc := OwnerPc.drain_call } (AppStep.owner none false)
      = { proc := { a.proc with env := call disk Thread.owner c a.proc.env },
          pc := OwnerPc.drain_pop } := by
    simp [step, ht, owner_step, hq]
  have hq' : (call disk Thread.owner c a.proc.env).tasks = c :: rest := by
    rw [(call_quiet disk Thread.owner c a.proc.env hc).1, hq]
  have e3 : step disk
      { proc := { a.proc with env := call disk Thread.owner c a.proc.env },
        pc := OwnerPc.drain_pop } (AppStep.owner none false)
      = { proc := { a.proc with
                    env := { (call disk Thread.owner c a.proc.env) with tasks := rest } },
          pc := OwnerPc.drain_test } := by
    simp [step, ht, owner_step, hq']
  rw [run_step, e1, run_step, e2, run_step, e3]

theorem drain_run (disk : Nat → Option Image) (cs : List Callable) :
    ∀ a : App, a.proc.terminated = false → a.pc = OwnerPc.drain_test →
      a.proc.env.tasks = cs →
      (∀ c ∈ cs, c = Callable.load_task → disk a.proc.env.buff = none) →
      run disk a (List.replicate (3 * cs.length + 1) (AppStep.owner none false))
        = { proc := { a.proc with
                      env := { (cs.foldl (fun m c => call disk Thread.owner c m) a.proc.env) with
                               tasks := [] } },
            pc := OwnerPc.ui } := by
  induction cs with
  | nil =>
    intro a ht hpc hq _
    have e1 : step disk a (AppStep.owner none false) = { a with pc := OwnerPc.ui } := by
      simp [step, ht, owner_step, hpc, hq]
    show run disk a [AppStep.owner none false] = _
    rw [run_step, e1]
    obtain ⟨⟨pool, ⟨tasks, loading, items, buff, textures, log⟩, ran, terminated⟩, pc⟩ := a
    simp only at hq
    subst hq
    rfl
  | cons c rest ih =>
    intro a ht hpc hq h
    have hc := h c (List.mem_cons_self _ _)
    have hlen : 3 * (c :: rest).length + 1 = (3 * rest.length + 1) + 1 + 1 + 1 := by
      simp only [List.length_cons]; omega
    rw [hlen, List.replicate_succ, List.replicate_succ, List.replicate_succ,
      drain_iteration disk a c rest ht hpc hq hc]
    have hrest : ∀ c' ∈ rest, c' = Callable.load_task →
        disk (call disk Thread.owner c a.proc.env).buff = none := by
      intro c' hc' hl
      rw [(call_quiet disk Thread.owner c a.proc.env hc).2]
      exact h c' (List.mem_cons_of_mem _ hc') hl
    have hi := ih
      { proc := { a.proc with
                  env := { (call disk Thread.owner c a.proc.env) with tasks := rest } },
        pc := OwnerPc.drain_test } ht rfl rfl hrest
    rw [hi]
    simp only [List.foldl_cons]
    rw [foldl_call_with_tasks disk rest _ rest hrest]

end App

namespace Proc

variable {τ σ : Type}

/-- Along a run that stays alive, the tasks enqueued before the first `destroy`
are the first tasks submitted. -/
theorem before_stop_prefix (call : Nat → τ → σ → Option σ) (sched : List (Step τ)) :
    ∀ s : Proc τ σ, (run call s sched).terminated = false →
      beforeStop sched <+: submitted call s sched := by
  induction sched with
  | nil => intro s _; simp [beforeStop, submitted]
  | cons e es ih =>
    intro s hl
    have ht : s.terminated = false := by
      cases h : s.terminated with
      | false => rfl
      | true => rw [run_terminated call s _ h, h] at hl; cases hl
    rw [run_cons] at hl
    have := ih _ hl
    cases e with
    | enqueue t =>
      simp only [beforeStop, submitted, ht, Bool.false_eq_true, if_false]
      exact List.prefix_cons_inj t |>.mpr this
    | destroy => simp [beforeStop]
    | dequeue i => simpa [beforeStop, submitted] using this
    | execute i => simpa [beforeStop, submitted] using this

/-- With at least one worker, a joined run has called every task enqueued
before the first `destroy`, as often as it was enqueued. -/
theorem before_stop_subperm (call : Nat → τ → σ → Option σ) (n : Nat) (hn : 0 < n) (env : σ)
    (sched : List (Step τ)) (hj : (run call (init n env) sched).joined = true) :
    (beforeStop sched).Subperm (run call (init n env) sched).executed := by
  classical
  have hinit : ∀ w ∈ (init n env : Proc τ σ).pool._threads, w = Worker.waiting := by
    intro w hw
    simp only [init, thread_pool.init] at hw
    exact List.eq_of_mem_replicate hw
  rw [List.subperm_ext_iff]
  intro x _
  have := before_stop_executed call sched (init n env) rfl
    (fun w hw => by rw [hinit w hw]; rfl)
    (by
      simp only [init, thread_pool.init]
      intro h0
      have := congrArg List.length h0
      simp at this
      omega)
    hj x
  rw [accounted_init] at this
  simpa using this

end Proc

namespace Proc

variable {τ σ : Type}

end Proc

namespace App

/-- A call adds to the trace only entries of the calling thread. -/
theorem log_error_of_call (disk : Nat → Option Image) (th th' : Thread) (c : Callable)
    (m : Main) (h : Obs.log_error th' ∈ (call disk th c m).log) :
    Obs.log_error th' ∈ m.log ∨ (th' = th ∧ c = Callable.load_task) := by
  cases c with
  | load_task =>
    simp only [call] at h
    split at h
    · simp only [List.mem_append, List.mem_singleton] at h
      rcases h with h | h
      · exact Or.inl h
      · cases h
    · simp only [List.mem_append, List.mem_cons, List.mem_singleton, List.mem_nil_iff,
        or_false] at h
      rcases h with h | h | h
      · exact Or.inl h
      · cases h
      · cases h; exact Or.inr ⟨rfl, rfl⟩
  | apply image =>
    simp only [call, List.mem_append, List.mem_singleton] at h
    rcases h with h | h
    · exact Or.inl h
    · cases h

/-- With the closures sorted, a step keeps every `log_error` entry on a worker. -/
theorem log_error_step (disk : Nat → Option Image) (a : App) (e : AppStep) (hs : a.sorted)
    (h : ∀ th, Obs.log_error th ∈ a.proc.env.log → ∃ i, th = Thread.worker i) :
    ∀ th, Obs.log_error th ∈ (step disk a e).proc.env.log → ∃ i, th = Thread.worker i := by
  by_cases ht : a.proc.terminated = true
  · rw [step_halted disk a e ht]; exact h
  have ht' : a.proc.terminated = false := by simpa using ht
  obtain ⟨_, _, h3, _, _⟩ := hs
  cases e with
  | owner typed click =>
    simp only [step, ht', Bool.false_eq_true, if_false, owner_step]
    cases hpc : a.pc with
    | drain_test => simp only; split <;> exact h
    | drain_call =>
      simp only
      cases hq : a.proc.env.tasks with
      | nil => exact h
      | cons c rest =>
        obtain ⟨image, rfl⟩ := h3 c (by rw [hq]; exact List.mem_cons_self _ _)
        intro th hm
        rcases log_error_of_call disk Thread.owner th _ _ hm with hm' | ⟨_, hc⟩
        · exact h th hm'
        · cases hc
    | drain_pop =>
      simp only
      cases hq : a.proc.env.tasks with
      | nil => exact h
      | cons c rest => exact h
    | ui => simp only; split <;> exact h
    | ui_enqueue => exact h
    | closed => simp only [hpc]; exact h
  | close =>
    simp only [step, ht', Bool.false_eq_true, if_false]
    split <;> exact h
  | dequeue i =>
    simp only [step, ht', Bool.false_eq_true, if_false]
    rcases Proc.dequeue_cases a.proc i with hd | ⟨_, _, _, hd⟩ | ⟨t, rest, _, _, hd⟩ <;>
      rw [hd] <;> exact h
  | execute i =>
    simp only [step, ht', Bool.false_eq_true, if_false]
    rcases Proc.execute_cases (worker_call disk) a.proc i with
      hd | ⟨t, env', _, hc, hd⟩ | ⟨t, _, hc, _⟩
    · rw [hd]; exact h
    · rw [hd]
      simp only [worker_call, Option.some.injEq] at hc
      subst hc
      intro th hm
      rcases log_error_of_call disk (Thread.worker i) th _ _ hm with hm' | ⟨hth, _⟩
      · exact h th hm'
      · exact ⟨i, hth⟩
    · simp [worker_call] at hc

theorem log_error_run (disk : Nat → Option Image) (sched : List AppStep) :
    ∀ a : App, a.sorted →
      (∀ th, Obs.log_error th ∈ a.proc.env.log → ∃ i, th = Thread.worker i) →
      ∀ th, Obs.log_error th ∈ (run disk a sched).proc.env.log → ∃ i, th = Thread.worker i := by
  induction sched with
  | nil => intro a _ h; exact h
  | cons e es ih =>
    intro a hs h
    rw [run_step]
    exact ih _ (sorted_step disk a e hs) (log_error_step disk a e hs h)

end App

namespace App

/-- What a call does to the trace and to `loading`: it appends to the trace,
clears `loading` when it appends a completion, and otherwise leaves it alone. -/
theorem call_completes (disk : Nat → Option Image) (th : Thread) (c : Callable) (m : Main) :
    ∃ new, (call disk th c m).log = m.log ++ new ∧
      (new.any Obs.completes = true → (call disk th c m).loading = false) ∧
      (new.any Obs.completes = false → (call disk th c m).loading = m.loading) := by
  cases c with
  | load_task =>
    cases hd : disk m.buff with
    | none =>
      exact ⟨[Obs.invoked th Callable.load_task, Obs.log_error th],
        by simp [call, hd], by simp [call, hd], by simp [Obs.completes]⟩
    | some image =>
      exact ⟨[Obs.invoked th Callable.load_task],
        by simp [call, hd], by simp [Obs.completes], by simp [call, hd]⟩
  | apply image =>
    exact ⟨[Obs.invoked th (Callable.apply image)],
      by simp [call], by simp [call], by simp [Obs.completes]⟩

/-- A step that is not a press of the button appends to the trace, clears
`loading` when it appends a completion, and otherwise leaves it alone. -/
theorem step_completes (disk : Nat → Option Image) (a : App) (e : AppStep)
    (he : e.isPress = false) :
    ∃ new, (step disk a e).proc.env.log = a.proc.env.log ++ new ∧
      (new.any Obs.completes = true → (step disk a e).proc.env.loading = false) ∧
      (new.any Obs.completes = false →
        (step disk a e).proc.env.loading = a.proc.env.loading) := by
  by_cases ht : a.proc.terminated = true
  · rw [step_halted disk a e ht]; exact ⟨[], by simp, by simp, by simp⟩
  have ht' : a.proc.terminated = false := by simpa using ht
  cases e with
  | owner typed click =>
    cases click with
    | true => simp [AppStep.isPress] at he
    | false =>
      simp only [step, ht', Bool.false_eq_true, if_false, owner_step]
      cases hpc : a.pc with
      | drain_test => simp only; split <;> exact ⟨[], by simp, by simp, by simp⟩
      | drain_call =>
        simp only
        cases hq : a.proc.env.tasks with
        | nil => exact ⟨[], by simp, by simp, by simp⟩
        | cons c rest => exact call_completes disk Thread.owner c a.proc.env
      | drain_pop =>
        simp only
        cases hq : a.proc.env.tasks with
        | nil => exact ⟨[], by simp, by simp, by simp⟩
        | cons c rest => exact ⟨[], by simp, by simp, by simp⟩
      | ui => exact ⟨[], by simp, by simp, by simp⟩
      | ui_enqueue => exact ⟨[], by simp, by simp, by simp⟩
      | closed => simp only [hpc]; exact ⟨[], by simp, by simp, by simp⟩
  | close =>
    simp only [step, ht', Bool.false_eq_true, if_false]
    split <;> exact ⟨[], by simp, by simp, by simp⟩
  | dequeue i =>
    simp only [step, ht', Bool.false_eq_true, if_false]
    rcases Proc.dequeue_cases a.proc i with hd | ⟨_, _, _, hd⟩ | ⟨t, rest, _, _, hd⟩ <;>
      rw [hd] <;> exact ⟨[], by simp, by simp, by simp⟩
  | execute i =>
    simp only [step, ht', Bool.false_eq_true, if_false]
    rcases Proc.execute_cases (worker_call disk) a.proc i with
      hd | ⟨t, env', _, hc, hd⟩ | ⟨t, _, hc, _⟩
    · rw [hd]; exact ⟨[], by simp, by simp, by simp⟩
    · rw [hd]
      simp only [worker_call, Option.some.injEq] at hc
      subst hc
      exact call_completes disk (Thread.worker i) t a.proc.env
    · simp [worker_call] at hc

/-- Along steps without a press of the button `loading`, once false, stays
false, and it is false as soon as a completion has been appended to the trace. -/
theorem run_completes (disk : Nat → Option Image) (post : List AppStep) :
    ∀ a : App, (∀ e ∈ post, e.isPress = false) →
      ∃ new, (run disk a post).proc.env.log = a.proc.env.log ++ new ∧
        ((a.proc.env.loading = false ∨ new.any Obs.completes = true) →
          (run disk a post).proc.env.loading = false) := by
  induction post with
  | nil =>
    intro a _
    exact ⟨[], by simp [run], by simp [run]⟩
  | cons e es ih =>
    intro a h
    obtain ⟨new1, hl1, hc1, hk1⟩ := step_completes disk a e (h e (List.mem_cons_self _ _))
    obtain ⟨new2, hl2, hc2⟩ := ih (step disk a e) (fun e' he' => h e' (List.mem_cons_of_mem _ he'))
    refine ⟨new1 ++ new2, by rw [run_step, hl2, hl1, List.append_assoc], ?_⟩
    intro hor
    rw [run_step]
    apply hc2
    cases h2 : new2.any Obs.completes with
    | true => exact Or.inr rfl
    | false =>
      left
      cases h1 : new1.any Obs.completes with
      | true => exact hc1 h1
      | false =>
        rw [hk1 h1]
        rcases hor with hor | hor
        · exact hor
        · rw [List.any_append, h1, h2] at hor
          cases hor

end App

/-! ## The claims -/

/-- C1, as stated, fails for `n_threads = 0`: no worker exists, the destructor
joins nothing and returns, and the task enqueued before it was never called. -/
theorem shutdown_zero_workers_counterexample :
    (Proc.run quiet_call (Proc.init 0 ()) [Step.enqueue 7, Step.destroy]).joined = true ∧
    beforeStop [Step.enqueue 7, Step.destroy] = [7] ∧
    (Proc.run quiet_call (Proc.init 0 ()) [Step.enqueue 7, Step.destroy]).executed = [] ∧
    (Proc.run quiet_call (Proc.init 0 ()) [Step.enqueue 7, Step.destroy]).pool._tasks = [7] := by
  decide

/-- C1 (amended): for every worker count `n ≥ 1` and every interleaving, when the
destructor has returned (every worker has left its loop) every task passed to
`enqueue` before the destructor set `_stop` has been called, as often as it was
enqueued.  And the destructor does return: if no task body throws, then after
any interleaving followed by the destructor's `_stop = true` some sequence of
worker steps leads to the state in which `join` has returned. -/
theorem shutdown_drains {τ σ : Type} (call : Nat → τ → σ → Option σ) (n : Nat) (hn : 0 < n)
    (env : σ) (sched : List (Step τ)) :
    ((Proc.run call (Proc.init n env) sched).joined = true →
      (beforeStop sched).Subperm (Proc.run call (Proc.init n env) sched).executed) ∧
    ((∀ i t m, call i t m ≠ none) →
      ∃ post : List (Step τ), (∀ e ∈ post, e.isWorker = true) ∧
        (Proc.run call (Proc.init n env) (sched ++ Step.destroy :: post)).joined = true) := by
  classical
  have hinit : ∀ w ∈ (Proc.init n env : Proc τ σ).pool._threads, w = Worker.waiting := by
    intro w hw
    simp only [Proc.init, thread_pool.init] at hw
    exact List.eq_of_mem_replicate hw
  constructor
  · exact Proc.before_stop_subperm call n hn env sched
  · intro hcall
    obtain ⟨ht, ha⟩ := Proc.alive_run call hcall sched (Proc.init n env) rfl
      (fun w hw => by rw [hinit w hw]; simp)
    obtain ⟨ht', ha'⟩ := Proc.alive_step call hcall _ Step.destroy ht ha
    have hs : (Proc.step call (Proc.run call (Proc.init n env) sched) Step.destroy).pool._stop
        = true := by
      simp [Proc.step, ht, thread_pool.set_stop]
    obtain ⟨post, hp1, hp2⟩ := Proc.can_join call hcall _ _ (Nat.le_refl _) ht' hs ha'
    refine ⟨post, hp1, ?_⟩
    rw [Proc.run_append, Proc.run_cons]
    exact hp2

/-- C1 (amended) on two workers: three tasks, the destructor called while one
of them is held by a worker. -/
theorem shutdown_drains_witness :
    0 < 2 ∧
    (Proc.run quiet_call (Proc.init 2 ())
      [Step.enqueue 1, Step.enqueue 2, Step.dequeue 1, Step.enqueue 3, Step.destroy,
       Step.dequeue 0, Step.execute 0, Step.dequeue 0, Step.execute 1, Step.execute 0,
       Step.dequeue 1, Step.dequeue 0]).joined = true ∧
    (∀ i t m, quiet_call i t m ≠ none) ∧
    (((Proc.run quiet_call (Proc.init 2 ())
        [Step.enqueue 1, Step.enqueue 2, Step.dequeue 1, Step.enqueue 3, Step.destroy,
         Step.dequeue 0, Step.execute 0, Step.dequeue 0, Step.execute 1, Step.execute 0,
         Step.dequeue 1, Step.dequeue 0]).joined = true →
      (beforeStop
        [Step.enqueue 1, Step.enqueue 2, Step.dequeue 1, Step.enqueue 3, Step.destroy,
         Step.dequeue 0, Step.execute 0, Step.dequeue 0, Step.execute 1, Step.execute 0,
         Step.dequeue 1, Step.dequeue 0]).Subperm
        (Proc.run quiet_call (Proc.init 2 ())
          [Step.enqueue 1, Step.enqueue 2, Step.dequeue 1, Step.enqueue 3, Step.destroy,
           Step.dequeue 0, Step.execute 0, Step.dequeue 0, Step.execute 1, Step.execute 0,
           Step.dequeue 1, Step.dequeue 0]).executed) ∧
     ((∀ i t m, quiet_call i t m ≠ none) →
      ∃ post : List (Step Nat), (∀ e ∈ post, e.isWorker = true) ∧
        (Proc.run quiet_call (Proc.init 2 ())
          ([Step.enqueue 1, Step.enqueue 2, Step.dequeue 1, Step.enqueue 3, Step.destroy,
            Step.dequeue 0, Step.execute 0, Step.dequeue 0, Step.execute 1, Step.execute 0,
            Step.dequeue 1, Step.dequeue 0] ++ Step.destroy :: post)).joined = true)) :=
  ⟨by decide, by decide, fun _ _ _ => by simp [quiet_call],
    shutdown_drains quiet_call 2 (by decide) () _⟩

/-- C2: in every interleaving the tasks called, held by a worker and still
queued are together a rearrangement of the tasks submitted, so none is counted
twice; when the submitted tasks are pairwise distinct, no task is called twice
and none is both called and still pending. -/
theorem no_task_twice {τ σ : Type} (call : Nat → τ → σ → Option σ) (n : Nat) (env : σ)
    (sched : List (Step τ)) :
    ((Proc.run call (Proc.init n env) sched).executed
        ++ (Proc.run call (Proc.init n env) sched).pool.inflight
        ++ (Proc.run call (Proc.init n env) sched).pool._tasks).Perm
      (Proc.submitted call (Proc.init n env) sched) ∧
    ((Proc.submitted call (Proc.init n env) sched).Nodup →
      ((Proc.run call (Proc.init n env) sched).executed
        ++ (Proc.run call (Proc.init n env) sched).pool.inflight
        ++ (Proc.run call (Proc.init n env) sched).pool._tasks).Nodup) := by
  classical
  have hperm : (Proc.accounted (Proc.run call (Proc.init n env) sched)).Perm
      (Proc.submitted call (Proc.init n env) sched) := by
    rw [List.perm_iff_count]
    intro x
    rw [Proc.count_accounted_run, Proc.accounted_init]
    simp
  exact ⟨hperm, fun h => hperm.nodup_iff.mpr h⟩

/-- C2 on two workers and three distinct tasks, one called, one held, one queued. -/
theorem no_task_twice_witness :
    (Proc.submitted quiet_call (Proc.init 2 ())
      [Step.enqueue 1, Step.enqueue 2, Step.dequeue 1, Step.enqueue 3, Step.execute 1,
       Step.dequeue 0]).Nodup ∧
    ((Proc.run quiet_call (Proc.init 2 ())
        [Step.enqueue 1, Step.enqueue 2, Step.dequeue 1, Step.enqueue 3, Step.execute 1,
         Step.dequeue 0]).executed
      ++ (Proc.run quiet_call (Proc.init 2 ())
        [Step.enqueue 1, Step.enqueue 2, Step.dequeue 1, Step.enqueue 3, Step.execute 1,
         Step.dequeue 0]).pool.inflight
      ++ (Proc.run quiet_call (Proc.init 2 ())
        [Step.enqueue 1, Step.enqueue 2, Step.dequeue 1, Step.enqueue 3, Step.execute 1,
         Step.dequeue 0]).pool._tasks).Nodup :=
  ⟨by decide, (no_task_twice quiet_call 2 () _).2 (by decide)⟩

/-- C3: with `n_threads = 1`, in every interleaving the tasks already called,
then the task the worker holds, then the tasks still queued are exactly the
submitted tasks in submission order; so the worker calls the tasks in the order
they were passed to `enqueue`.  Once the destructor has returned, the calls made
begin with all the tasks enqueued before it, in submission order. -/
theorem single_worker_fifo {τ σ : Type} (call : Nat → τ → σ → Option σ) (env : σ)
    (sched : List (Step τ)) :
    (Proc.run call (Proc.init 1 env) sched).executed
        ++ (Proc.run call (Proc.init 1 env) sched).pool.inflight
        ++ (Proc.run call (Proc.init 1 env) sched).pool._tasks
      = Proc.submitted call (Proc.init 1 env) sched ∧
    (Proc.run call (Proc.init 1 env) sched).executed
      <+: Proc.submitted call (Proc.init 1 env) sched ∧
    ((Proc.run call (Proc.init 1 env) sched).joined = true →
      beforeStop sched <+: (Proc.run call (Proc.init 1 env) sched).executed) := by
  have h : Proc.accounted (Proc.run call (Proc.init 1 env) sched)
      = Proc.submitted call (Proc.init 1 env) sched := by
    rw [Proc.accounted_run_single call sched _ (by simp [Proc.init, thread_pool.init]),
      Proc.accounted_init]
    simp
  have hpre : (Proc.run call (Proc.init 1 env) sched).executed
      <+: Proc.submitted call (Proc.init 1 env) sched := by
    rw [← h]
    simp [Proc.accounted, List.append_assoc]
  refine ⟨h, hpre, ?_⟩
  intro hj
  have hlive : (Proc.run call (Proc.init 1 env) sched).terminated = false := by
    simp only [Proc.joined, Bool.and_eq_true, Bool.not_eq_true'] at hj
    exact hj.1
  have hsub := Proc.before_stop_subperm call 1 (by decide) env sched hj
  exact List.prefix_of_prefix_length_le
    (Proc.before_stop_prefix call sched _ hlive) hpre hsub.length_le

/-- C3 on three tasks, the third enqueued while the first is being called. -/
theorem single_worker_fifo_witness :
    (Proc.run quiet_call (Proc.init 1 ())
      [Step.enqueue 1, Step.enqueue 2, Step.dequeue 0, Step.enqueue 3, Step.execute 0,
       Step.destroy, Step.dequeue 0, Step.execute 0, Step.dequeue 0, Step.execute 0,
       Step.dequeue 0]).joined = true ∧
    beforeStop
      [Step.enqueue 1, Step.enqueue 2, Step.dequeue 0, Step.enqueue 3, Step.execute 0,
       Step.destroy, Step.dequeue 0, Step.execute 0, Step.dequeue 0, Step.execute 0,
       Step.dequeue 0] = [1, 2, 3] ∧
    beforeStop
      [Step.enqueue 1, Step.enqueue 2, Step.dequeue 0, Step.enqueue 3, Step.execute 0,
       Step.destroy, Step.dequeue 0, Step.execute 0, Step.dequeue 0, Step.execute 0,
       Step.dequeue 0]
      <+: (Proc.run quiet_call (Proc.init 1 ())
        [Step.enqueue 1, Step.enqueue 2, Step.dequeue 0, Step.enqueue 3, Step.execute 0,
         Step.destroy, Step.dequeue 0, Step.execute 0, Step.dequeue 0, Step.execute 0,
         Step.dequeue 0]).executed :=
  ⟨by decide, by decide, (single_worker_fifo quiet_call () _).2.2 (by decide)⟩

/-- C5, as stated, fails: after a load of the path that does not decode, the
completion queue holds no item at all, and `log_error` was called on worker 0. -/
theorem load_failure_counterexample :
    (App.run example_disk (App.init 1 7 1)
      (click_load 0 ++ [AppStep.execute 0])).proc.env.tasks = [] ∧
    (App.run example_disk (App.init 1 7 1)
      (click_load 0 ++ [AppStep.execute 0])).proc.env.log
      = [Obs.invoked (Thread.worker 0) Callable.load_task, Obs.log_error (Thread.worker 0)] := by
  decide

/-- C5 (amended): a pool worker that runs a load task whose decode fails pushes
nothing onto the completion queue, creates no texture and appends no item: the
task itself calls `log_error`, on the worker thread that runs it.  And in every
run of the loader every call of `log_error` was made on a pool worker, none on
the owner thread. -/
theorem load_failure (disk : Nat → Option Image) (a : App) (i : Nat)
    (ht : a.proc.terminated = false)
    (hw : a.proc.pool._threads[i]? = some (Worker.running Callable.load_task))
    (hd : disk a.proc.env.buff = none) :
    ((App.step disk a (AppStep.execute i)).proc.env.tasks = a.proc.env.tasks ∧
      (App.step disk a (AppStep.execute i)).proc.env.log
        = a.proc.env.log
          ++ [Obs.invoked (Thread.worker i) Callable.load_task,
              Obs.log_error (Thread.worker i)] ∧
      (App.step disk a (AppStep.execute i)).proc.env.items = a.proc.env.items ∧
      (App.step disk a (AppStep.execute i)).proc.env.textures = a.proc.env.textures ∧
      (App.step disk a (AppStep.execute i)).proc.pool._threads[i]? = some Worker.waiting) ∧
    (∀ (n buff textures : Nat) (sched : List AppStep) (th : Thread),
      Obs.log_error th ∈ (App.run disk (App.init n buff textures) sched).proc.env.log →
      ∃ j, th = Thread.worker j) := by
  have hlt : i < a.proc.pool._threads.length := (List.getElem?_eq_some.mp hw).1
  have hx := Proc.execute_running (worker_call disk) a.proc i Callable.load_task
    (call disk (Thread.worker i) Callable.load_task a.proc.env) hw rfl
  have hs : App.step disk a (AppStep.execute i)
      = { a with proc := a.proc.execute (worker_call disk) i } := by
    simp [App.step, ht]
  constructor
  · rw [hs, hx]
    refine ⟨?_, ?_, ?_, ?_, ?_⟩ <;> simp [call, hd, hlt]
  · intro n buff textures sched
    exact App.log_error_run disk sched _ (App.sorted_init n buff textures)
      (by simp [App.init, Proc.init])

/-- C5 (amended) at worker 0 holding the load task of a path that does not decode. -/
theorem load_failure_witness :
    (App.run example_disk (App.init 1 7 1) (click_load 0)).proc.terminated = false ∧
    (App.run example_disk (App.init 1 7 1) (click_load 0)).proc.pool._threads[0]?
      = some (Worker.running Callable.load_task) ∧
    example_disk (App.run example_disk (App.init 1 7 1) (click_load 0)).proc.env.buff = none ∧
    (App.step example_disk (App.run example_disk (App.init 1 7 1) (click_load 0))
      (AppStep.execute 0)).proc.env.tasks
      = (App.run example_disk (App.init 1 7 1) (click_load 0)).proc.env.tasks ∧
    (App.step example_disk (App.run example_disk (App.init 1 7 1) (click_load 0))
      (AppStep.execute 0)).proc.env.log
      = (App.run example_disk (App.init 1 7 1) (click_load 0)).proc.env.log
        ++ [Obs.invoked (Thread.worker 0) Callable.load_task, Obs.log_error (Thread.worker 0)] :=
  ⟨rfl, rfl, rfl,
    (load_failure example_disk (App.run example_disk (App.init 1 7 1) (click_load 0)) 0
      rfl rfl rfl).1.1,
    (load_failure example_disk (App.run example_disk (App.init 1 7 1) (click_load 0)) 0
      rfl rfl rfl).1.2.1⟩

/-- C6: in every run of the loader an apply closure (the one that calls
`create_texture` and appends to `items`) is entered on the owner thread only,
never on a pool worker; pool workers call load tasks only, and load tasks, the
only code that pushes onto `tasks`, are entered on pool workers only. -/
theorem apply_only_on_owner (disk : Nat → Option Image) (n buff textures : Nat)
    (sched : List AppStep) :
    (∀ th image, Obs.invoked th (Callable.apply image)
        ∈ (App.run disk (App.init n buff textures) sched).proc.env.log → th = Thread.owner) ∧
    (∀ p ∈ (App.run disk (App.init n buff textures) sched).proc.ran,
        p.2 = Callable.load_task) ∧
    (∀ th, Obs.invoked th Callable.load_task
        ∈ (App.run disk (App.init n buff textures) sched).proc.env.log →
        ∃ i, th = Thread.worker i) := by
  obtain ⟨_, _, _, h4, h5⟩ := App.sorted_run disk sched _ (App.sorted_init n buff textures)
  exact ⟨fun th image hm => (h5 th _ hm).2 image rfl, h4, fun th hm => (h5 th _ hm).1 rfl⟩

/-- C6 on a load that succeeds: the apply closure is in the trace, entered on
the owner thread. -/
theorem apply_only_on_owner_witness :
    Obs.invoked Thread.owner (Callable.apply { width := 4, height := 2 })
      ∈ (App.run example_disk (App.init 1 7 1)
          (click_load 1 ++ [AppStep.execute 0, AppStep.owner none false,
            AppStep.owner none false])).proc.env.log ∧
    (∀ th, Obs.invoked th (Callable.apply { width := 4, height := 2 })
      ∈ (App.run example_disk (App.init 1 7 1)
          (click_load 1 ++ [AppStep.execute 0, AppStep.owner none false,
            AppStep.owner none false])).proc.env.log → th = Thread.owner) :=
  ⟨by decide, fun th h => (apply_only_on_owner example_disk 1 7 1 _).1 th _ h⟩

/-- C7, as stated, fails: the first load's background task has run (its decode
failed) and the owner has since passed the drain loop twice with the queue
empty, yet `loading` is true, because the button was pressed again. -/
theorem loading_after_second_press_counterexample :
    (App.run example_disk (App.init 1 7 1)
      (click_load 0 ++ [AppStep.execute 0, AppStep.owner none false,
        AppStep.owner (some 0) true, AppStep.owner none false,
        AppStep.owner none false])).proc.ran = [(0, Callable.load_task)] ∧
    (App.run example_disk (App.init 1 7 1)
      (click_load 0 ++ [AppStep.execute 0, AppStep.owner none false,
        AppStep.owner (some 0) true, AppStep.owner none false,
        AppStep.owner none false])).proc.env.tasks = [] ∧
    (App.run example_disk (App.init 1 7 1)
      (click_load 0 ++ [AppStep.execute 0, AppStep.owner none false,
        AppStep.owner (some 0) true, AppStep.owner none false,
        AppStep.owner none false])).pc = OwnerPc.ui ∧
    (App.run example_disk (App.init 1 7 1)
      (click_load 0 ++ [AppStep.execute 0, AppStep.owner none false,
        AppStep.owner (some 0) true, AppStep.owner none false,
        AppStep.owner none false])).proc.env.loading = true := by
  decide

/-- C7 (amended): a press of the button starts a load and sets `loading` to
true.  When the background task of a load runs and the decode fails, `loading`
is false after that step; when the decode succeeds the task pushes the apply
closure, and `loading` is false after the owner's drain has called it.  From
then on `loading` stays false until the button is pressed again: along any
steps without a press, `loading` is false once it was false or once a load has
completed.  In particular, in every run, `loading` is false whenever no load is
on its way and the completion queue is empty. -/
theorem loading_cleared (disk : Nat → Option Image) :
    (∀ (a : App) (typed : Option Nat), a.proc.terminated = false → a.pc = OwnerPc.ui →
      (App.step disk a (AppStep.owner typed true)).proc.env.loading = true ∧
      (App.step disk a (AppStep.owner typed true)).pc = OwnerPc.ui_enqueue) ∧
    (∀ (a : App) (i : Nat), a.proc.terminated = false →
      a.proc.pool._threads[i]? = some (Worker.running Callable.load_task) →
      disk a.proc.env.buff = none →
      (App.step disk a (AppStep.execute i)).proc.env.loading = false) ∧
    (∀ (a : App) (i : Nat) (image : Image), a.proc.terminated = false →
      a.proc.pool._threads[i]? = some (Worker.running Callable.load_task) →
      disk a.proc.env.buff = some image →
      (App.step disk a (AppStep.execute i)).proc.env.tasks
        = a.proc.env.tasks ++ [Callable.apply image]) ∧
    (∀ (a : App) (image : Image) (rest : List Callable) (typed : Option Nat) (click : Bool),
      a.proc.terminated = false → a.pc = OwnerPc.drain_call →
      a.proc.env.tasks = Callable.apply image :: rest →
      (App.step disk a (AppStep.owner typed click)).proc.env.loading = false ∧
      (App.step disk a (AppStep.owner typed click)).proc.env.log
        = a.proc.env.log ++ [Obs.invoked Thread.owner (Callable.apply image)]) ∧
    (∀ (a : App) (post : List AppStep), (∀ e ∈ post, e.isPress = false) →
      ∃ new, (App.run disk a post).proc.env.log = a.proc.env.log ++ new ∧
        ((a.proc.env.loading = false ∨ new.any Obs.completes = true) →
          (App.run disk a post).proc.env.loading = false)) ∧
    (∀ (n buff textures : Nat) (sched : List AppStep),
      (App.run disk (App.init n buff textures) sched).proc.pool._tasks = [] →
      (App.run disk (App.init n buff textures) sched).proc.pool.inflight = [] →
      (App.run disk (App.init n buff textures) sched).pc ≠ OwnerPc.ui_enqueue →
      (App.run disk (App.init n buff textures) sched).proc.env.tasks = [] →
      (App.run disk (App.init n buff textures) sched).proc.env.loading = false) := by
  refine ⟨?_, ?_, ?_, ?_, ?_, ?_⟩
  · intro a typed ht hpc
    simp [App.step, ht, App.owner_step, hpc]
  · intro a i ht hw hd
    have hx := Proc.execute_running (worker_call disk) a.proc i Callable.load_task
      (call disk (Thread.worker i) Callable.load_task a.proc.env) hw rfl
    have hs : App.step disk a (AppStep.execute i)
        = { a with proc := a.proc.execute (worker_call disk) i } := by
      simp [App.step, ht]
    rw [hs, hx]
    simp [call, hd]
  · intro a i image ht hw hd
    have hx := Proc.execute_running (worker_call disk) a.proc i Callable.load_task
      (call disk (Thread.worker i) Callable.load_task a.proc.env) hw rfl
    have hs : App.step disk a (AppStep.execute i)
        = { a with proc := a.proc.execute (worker_call disk) i } := by
      simp [App.step, ht]
    rw [hs, hx]
    simp [call, hd]
  · intro a image rest typed click ht hpc hq
    simp [App.step, ht, App.owner_step, hpc, hq, call]
  · intro a post h
    exact App.run_completes disk post a h
  · intro n buff textures sched hpool hheld hpc hdrained
    obtain ⟨_, h2⟩ := App.pending_run disk sched _ (App.pending_init n buff textures)
    cases hl : (App.run disk (App.init n buff textures) sched).proc.env.loading with
    | false => rfl
    | true =>
      rcases h2 hl with h | h | h | h
      · exact absurd hpool h
      · exact absurd hheld h
      · exact absurd h hpc
      · rw [hdrained] at h
        simp at h

/-- C7 (amended) on concrete runs: the press sets `loading` to true; a load
that fails (path 0) and a load that succeeds (path 1) each end, after the
drain, with `loading` false; and with two loads on two workers, the first
failing while the second is still held, `loading` is false from the failure on. -/
theorem loading_cleared_witness :
    (App.step example_disk (App.run example_disk (App.init 1 7 1) [AppStep.owner none false])
      (AppStep.owner (some 0) true)).proc.env.loading = true ∧
    (App.run example_disk (App.init 1 7 1)
      (click_load 0 ++ [AppStep.execute 0, AppStep.owner none false])).proc.env.loading
      = false ∧
    (App.run example_disk (App.init 1 7 1)
      (click_load 1 ++ [AppStep.execute 0, AppStep.owner none false, AppStep.owner none false,
        AppStep.owner none false, AppStep.owner none false])).proc.env.loading = false ∧
    (App.step example_disk
      (App.run example_disk (App.init 2 7 1)
        (click_load 0 ++ [AppStep.owner none false, AppStep.owner none true,
          AppStep.owner none false, AppStep.dequeue 1]))
      (AppStep.execute 0)).proc.env.loading = false :=
  ⟨((loading_cleared example_disk).1
      (App.run example_disk (App.init 1 7 1) [AppStep.owner none false]) (some 0) rfl rfl).1,
    (loading_cleared example_disk).2.2.2.2.2 1 7 1
      (click_load 0 ++ [AppStep.execute 0, AppStep.owner none false])
      (by decide) (by decide) (by decide) (by decide),
    (loading_cleared example_disk).2.2.2.2.2 1 7 1
      (click_load 1 ++ [AppStep.execute 0, AppStep.owner none false, AppStep.owner none false,
        AppStep.owner none false, AppStep.owner none false])
      (by decide) (by decide) (by decide) (by decide),
    (loading_cleared example_disk).2.1
      (App.run example_disk (App.init 2 7 1)
        (click_load 0 ++ [AppStep.owner none false, AppStep.owner none true,
          AppStep.owner none false, AppStep.dequeue 1]))
      0 rfl rfl rfl⟩

/-- C8 fails on the code: with the load task of a decodable path held by worker
0 and the owner at line 138, the worker's next step writes `tasks` holding
`load_mtx` and the owner's next step reads `tasks` holding no lock; later in
that frame, after the push, the owner calls the front closure and pops it, again
holding no lock. -/
theorem drain_without_lock :
    tasks_accesses example_disk (App.run example_disk (App.init 1 7 1) (click_load 1))
      (AppStep.execute 0)
      = [{ thread := Thread.worker 0, writes := true, locked := true }] ∧
    tasks_accesses example_disk (App.run example_disk (App.init 1 7 1) (click_load 1))
      (AppStep.owner none false)
      = [{ thread := Thread.owner, writes := false, locked := false }] ∧
    tasks_accesses example_disk
      (App.run example_disk (App.init 1 7 1)
        (click_load 1 ++ [AppStep.execute 0, AppStep.owner none false]))
      (AppStep.owner none false)
      = [{ thread := Thread.owner, writes := false, locked := false }] ∧
    tasks_accesses example_disk
      (App.run example_disk (App.init 1 7 1)
        (click_load 1 ++ [AppStep.execute 0, AppStep.owner none false,
          AppStep.owner none false]))
      (AppStep.owner none false)
      = [{ thread := Thread.owner, writes := true, locked := false }] := by
  decide

/-- C9: in every state `(_tasks, _stop)` that lets a worker past its wait, the
worker stops exactly when `_stop` is true and `_tasks` is empty, otherwise it
takes the front task and leaves the rest in order; `front()`/`pop()` are not
reached on an empty queue. -/
theorem critical_spec {τ : Type} (stop : Bool) (tasks : List τ)
    (hpast : tasks ≠ [] ∨ stop = true) :
    critical stop tasks ≠ Dequeued.blocked ∧
    (critical stop tasks = Dequeued.stopped ↔ (stop = true ∧ tasks = [])) ∧
    (¬ (stop = true ∧ tasks = []) →
      ∃ task rest, tasks = task :: rest ∧ critical stop tasks = Dequeued.took task rest) ∧
    critical stop tasks ≠ Dequeued.emptyFront := by
  cases tasks with
  | nil =>
    cases stop with
    | false => simp at hpast
    | true => simp [critical]
  | cons t rest =>
    cases stop <;> simp [critical]

/-- C9 at a concrete state: `_stop` set and two tasks queued. -/
theorem critical_spec_witness :
    (([4, 5] : List Nat) ≠ [] ∨ true = true) ∧
    (critical true [4, 5] ≠ Dequeued.blocked ∧
      (critical true [4, 5] = Dequeued.stopped ↔ (true = true ∧ ([4, 5] : List Nat) = [])) ∧
      (¬ (true = true ∧ ([4, 5] : List Nat) = []) →
        ∃ task rest, [4, 5] = task :: rest ∧ critical true [4, 5] = Dequeued.took task rest) ∧
      critical true [4, 5] ≠ Dequeued.emptyFront) :=
  ⟨Or.inr rfl, critical_spec true [4, 5] (Or.inr rfl)⟩

/-- C10: started at line 138 on a completion queue holding `c1..ck`, none of
which pushes a further item, and with no other thread stepping, the drain loop
leaves the loop after `3k + 1` owner statements; the memory is then what calling
`c1`, ..., `ck` on the owner thread in that order makes of it, with `tasks`
empty, and the trace has grown by exactly the entries of `c1..ck` in queue
order.  For `k = 0` nothing is called and the only change is that control has
passed the loop. -/
theorem drain_in_order (disk : Nat → Option Image) (a : App) (cs : List Callable)
    (ht : a.proc.terminated = false) (hpc : a.pc = OwnerPc.drain_test)
    (hq : a.proc.env.tasks = cs)
    (hquiet : ∀ c ∈ cs, c = Callable.load_task → disk a.proc.env.buff = none) :
    App.run disk a (List.replicate (3 * cs.length + 1) (AppStep.owner none false))
      = { proc := { a.proc with
                    env := { (cs.foldl (fun m c => call disk Thread.owner c m) a.proc.env) with
                             tasks := [] } },
          pc := OwnerPc.ui } ∧
    (App.run disk a (List.replicate (3 * cs.length + 1)
      (AppStep.owner none false))).proc.env.log
      = a.proc.env.log ++ cs.flatMap (quiet_obs Thread.owner) ∧
    (cs = [] →
      App.run disk a (List.replicate (3 * cs.length + 1) (AppStep.owner none false))
        = { a with pc := OwnerPc.ui }) := by
  have hrun := App.drain_run disk cs a ht hpc hq hquiet
  refine ⟨hrun, ?_, ?_⟩
  · rw [hrun]
    exact App.foldl_call_log disk cs a.proc.env hquiet
  · intro h0
    subst h0
    simp [App.run, App.step, ht, App.owner_step, hpc, hq]

/-- C10 on a queue of two apply closures. -/
theorem drain_in_order_witness :
    (App.run example_disk
      { proc := { pool := thread_pool.init Callable 1,
                  env := { tasks := [Callable.apply { width := 4, height := 2 },
                                     Callable.apply { width := 1, height := 1 }],
                           loading := true, items := [], buff := 1, textures := 5, log := [] },
                  ran := [], terminated := false },
        pc := OwnerPc.drain_test }
      (List.replicate 7 (AppStep.owner none false))).proc.env
      = { tasks := [], loading := false,
          items := [{ texture := 5, image := some { width := 4, height := 2 } },
                    { texture := 6, image := some { width := 1, height := 1 } }],
          buff := 1, textures := 7,
          log := [Obs.invoked Thread.owner (Callable.apply { width := 4, height := 2 }),
                  Obs.invoked Thread.owner (Callable.apply { width := 1, height := 1 })] } :=
  congrArg (fun x => x.proc.env)
    (drain_in_order example_disk
      { proc := { pool := thread_pool.init Callable 1,
                  env := { tasks := [Callable.apply { width := 4, height := 2 },
                                     Callable.apply { width := 1, height := 1 }],
                           loading := true, items := [], buff := 1, textures := 5, log := [] },
                  ran := [], terminated := false },
        pc := OwnerPc.drain_test }
      [Callable.apply { width := 4, height := 2 }, Callable.apply { width := 1, height := 1 }]
      rfl rfl rfl (fun c _ h => by subst h; contradiction)).1

end keiki
